import Mathlib

/-!
# pipebench: a shallow embedding of `pipebench.c`

The development follows the C source function by function:

* `unitify`   (lines 66-106): scaling of a byte count into a unit tier,
* `time_diff` (lines 111-128): rendering of an elapsed interval,
* `main`      (lines 141-316): option record, status file, transfer loop, summary.

Machine integers are natural numbers or integers reduced explicitly to the width
of their C type (LP64: `uint64_t` and `unsigned long` are 64 bits wide, `long` is a
signed 64-bit integer); the `double` arithmetic of the summary is binary64 with
rounding to nearest, ties to even, on exact integer significands.  Library calls whose result depends on the outside world
(`fopen`, `malloc`, `clock_gettime`, the streams, the `done` flag set by the signal
handler) take their result from an explicit environment.
-/

namespace Pipebench

/-! ## unitify -/

/-- Reduction of an arithmetic result to 64 unsigned bits. -/
def wrap64 (x : Nat) : Nat := x % 2 ^ 64

/-- The suffix table `units[]` of `unitify` (lines 73-81). -/
def units : List String := ["", "k", "M", "G", "T", "P", "E"]

/-- The arguments `unitify` hands to `snprintf(buf, max, "%7.*f %s", fra, inf, unit)`:
the tier index `e`, the numerator `val` of `inf` (`inf` is `val / 100.0` when `fra = 2`
and `val` itself when `fra = 0`), the precision `fra` and the suffix. -/
structure Unitified where
  e : Nat
  val : Nat
  fra : Nat
  unit : String
  deriving DecidableEq, Repr

/-- Lines 87-90: `if (in > (nunit*nunit)) { e++; in/=nunit; }`, giving `(e, in)`.
The parameter `W` is the reduction applied to every arithmetic result (`wrap64` for the
program).  A division by zero has no result. -/
def preDivide (W : Nat → Nat) (_in nunit : Nat) : Option (Nat × Nat) :=
  if _in > W (nunit * nunit) then
    if nunit = 0 then none else some (1, _in / nunit)
  else
    some (0, _in)

/-- Lines 92-95: `while (in > (100*nunit)) { e++; in/=nunit; }`.  The first argument
bounds the number of evaluations of the loop condition; `none` is returned when the bound
is used up before the loop ends, or on a division by zero. -/
def scaleLoop (W : Nat → Nat) (nunit : Nat) : Nat → Nat → Nat → Option (Nat × Nat)
  | 0, _, _ => none
  | fuel + 1, e, v =>
    if v > W (100 * nunit) then
      if nunit = 0 then none else scaleLoop W nunit fuel (e + 1) (v / nunit)
    else
      some (e, v)

/-- Lines 96-99: `while (e && (e >= 7)) { e--; in*=nunit; }`, where 7 is
`sizeof(units)/sizeof(char*)`. -/
def walkBack (W : Nat → Nat) (nunit : Nat) : Nat → Nat → Nat × Nat
  | 0, v => (0, v)
  | e + 1, v => if e + 1 ≥ 7 then walkBack W nunit e (W (v * nunit)) else (e + 1, v)

/-- Lines 87-95, the two dividing passes: the pre-division, `in *= 100`, and the
refinement loop.  The result is `(e, in)` as the walk-back loop finds them. -/
def dividePasses (W : Nat → Nat) (fuel _in nunit : Nat) : Option (Nat × Nat) :=
  match preDivide W _in nunit with
  | none => none
  | some (e0, v0) => scaleLoop W nunit fuel e0 (W (v0 * 100))

/-- Body of `unitify` (lines 84-103) over an arbitrary reduction `W`.  Reading `units[e]`
outside the table has no result. -/
def unitifyWith (W : Nat → Nat) (fuel _in nunit : Nat) (dounit : Bool) : Option Unitified :=
  if dounit then
    match dividePasses W fuel _in nunit with
    | none => none
    | some (e1, v1) =>
      match units[(walkBack W nunit e1 v1).1]? with
      | none => none
      | some u =>
        some { e := (walkBack W nunit e1 v1).1, val := (walkBack W nunit e1 v1).2, fra := 2, unit := u }
  else
    some { e := 0, val := _in, fra := 0, unit := "" }

/-- The function `unitify` of the program: 64-bit arithmetic. -/
def unitify (fuel _in nunit : Nat) (dounit : Bool) : Option Unitified :=
  unitifyWith wrap64 fuel _in nunit dounit

/-- The same statements over unbounded integers (no reduction at all). -/
def unitifyUnbounded (fuel _in nunit : Nat) (dounit : Bool) : Option Unitified :=
  unitifyWith id fuel _in nunit dounit

/-- Two decimal digits of a number below 100. -/
def twoDigits (n : Nat) : List Char :=
  [Char.ofNat (48 + n / 10 % 10), Char.ofNat (48 + n % 10)]

/-- Decimal digits of a natural number, most significant first; the first argument
bounds the number of digits. -/
def decDigits : Nat → Nat → List Char → List Char
  | 0, _, acc => acc
  | fuel + 1, n, acc =>
    if n < 10 then Char.ofNat (48 + n) :: acc
    else decDigits fuel (n / 10) (Char.ofNat (48 + n % 10) :: acc)

/-- The text of `"%7.*f %s"` (line 104) as a decimal expansion: `val` with `fra`
implied decimals, padded with blanks on the left to 7 characters, a blank, and the suffix.
The program prints the double `inf`; the two texts agree whenever `in / 100.0` is exact
in double precision, as it is for 200 (`200 / 100.0` is `2.0`). -/
def unitText (u : Unitified) : String :=
  let num : List Char :=
    if u.fra = 0 then decDigits 20 u.val []
    else decDigits 20 (u.val / 100) [] ++ '.' :: twoDigits (u.val % 100)
  String.mk (List.replicate (7 - num.length) ' ' ++ num) ++ " " ++ u.unit

/-! ## time_diff -/

/-- A `struct timespec`. -/
structure Timespec where
  tv_sec : Int
  tv_nsec : Int
  deriving DecidableEq, Repr

/-- Reduction of an arithmetic result to a signed 64-bit `long`. -/
def wrapLong (x : Int) : Int := (x + 2 ^ 63) % 2 ^ 64 - 2 ^ 63

/-- The four numbers `time_diff` hands to `snprintf` with the format
`"%.2ldh%.2ldm%.2ld.%.2lds"` (lines 122-126). -/
structure TimeDiff where
  hours : Int
  minutes : Int
  seconds : Int
  hundredths : Int
  deriving DecidableEq, Repr

/-- Lines 114-126 of `time_diff`; `/` and `%` of C truncate towards zero. -/
def time_diff (start end_ : Timespec) : TimeDiff :=
  let sec := wrapLong (end_.tv_sec - start.tv_sec)
  let nsec := wrapLong (end_.tv_nsec - start.tv_nsec)
  let sec1 := if nsec < 0 then wrapLong (sec - 1) else sec
  let nsec1 := if nsec < 0 then wrapLong (nsec + 1000000000) else nsec
  { hours := sec1.tdiv 3600
    minutes := (sec1.tdiv 60).tmod 60
    seconds := sec1.tmod 60
    hundredths := nsec1.tdiv 10000000 }

/-- Total nanoseconds of a timestamp. -/
def Timespec.nanos (t : Timespec) : Int := t.tv_sec * 1000000000 + t.tv_nsec

/-! ## main: options, streams and environment -/

/-- The option variables of `main` after `getopt` (lines 149-158), with their defaults. -/
structure Options where
  bufsize : Nat := 819200
  summary : Bool := true
  errout : Bool := false
  quiet : Bool := false
  fancy : Bool := true
  dounit : Bool := true
  statusf_append : Bool := false
  statusfn : Option String := none
  unit : Nat := 1024
  deriving Repr

/-- A `FILE *` used as status sink. -/
inductive FilePtr where
  | null
  | stderr
  | file (name : String)
  deriving DecidableEq, Repr

/-- One call of `fwrite(buffer, 1, n, stdout)`: the bytes that reached the output and
the number of bytes requested. -/
structure WriteRec where
  data : List Nat
  requested : Nat
  deriving DecidableEq, Repr

/-- A write completed when `fwrite` returned the requested count (line 254). -/
def WriteRec.complete (w : WriteRec) : Bool := w.data.length == w.requested

/-- What is sent to the status sink. -/
inductive StatusEvent where
  | fancyLine (sink : FilePtr) (elapsed : TimeDiff) (total speed : Option Unitified)
      (ctime : String) (terminator : Char)
  | rawLine (sink : FilePtr) (speed : Nat)
  | summaryLine (sink : FilePtr) (terminator : Char) (total : Option Unitified)
      (elapsed : TimeDiff)
  deriving DecidableEq, Repr

/-- What the outside world does during one iteration of the transfer loop. -/
structure Env where
  /-- the flag `done` as the loop test reads it (set by the `SIGINT` handler) -/
  done : Bool
  /-- with `some k`, reading standard input fails with an error once `k` more bytes have
  been delivered; with `none`, the input is delivered up to its end -/
  readFault : Option Nat
  /-- with `some k`, writing standard output fails once `k` more bytes have been accepted;
  with `none`, everything is accepted -/
  writeFault : Option Nat
  /-- result of `clock_gettime(CLOCK_MONOTONIC, _)`; `none` when it fails -/
  clock : Option Timespec
  /-- the text `strftime` leaves in `ctimebuf` -/
  ctime : String
  deriving Repr

/-- The variables of `main` that the transfer loop reads and writes, with the two
data streams and the status sink's contents. -/
structure LoopState where
  datalen : Nat
  last_datalen : Nat
  speed : Nat
  tv : Timespec
  /-- bytes of standard input not yet consumed -/
  stdin : List Nat
  /-- error indicator of standard input, as `ferror` reports it -/
  stdinErr : Bool
  /-- calls of `fwrite` on standard output, oldest first -/
  stdout : List WriteRec
  /-- output on the status sink, oldest first -/
  status : List StatusEvent
  deriving Repr

/-- Bytes that a read asking for `want` bytes obtains from the stream. -/
def streamRead (avail : List Nat) (fault : Option Nat) (want : Nat) : List Nat :=
  match fault with
  | none => avail.take want
  | some k => (avail.take k).take want

/-- Whether a read asking for `want` bytes runs into the input error. -/
def streamErr (avail : List Nat) (fault : Option Nat) (want : Nat) : Bool :=
  match fault with
  | none => false
  | some k => decide (k < want) && decide (k ≤ avail.length)

/-- Bound on the evaluations of the loop condition granted to the loops of `unitify`
when it is called from `main`. -/
def unitifyFuel : Nat := 65

/-- How one iteration of the transfer loop ends. -/
inductive Step where
  /-- the body ran to its end (line 290) -/
  | next (s : LoopState)
  /-- the statement `break` -/
  | brk (s : LoopState)
  /-- a `return` or `exit` with the given status -/
  | exit (code : Nat) (s : LoopState)
  /-- a call of `fprintf` on a null `FILE *`, without defined behaviour -/
  | undefined (s : LoopState)
  deriving Repr

/-- Lines 54-60, `get_mono_time`: the timestamp read, or `Except.error 1` for the
`exit(1)` taken when `clock_gettime` fails. -/
def get_mono_time (clock : Option Timespec) : Except Nat Timespec :=
  match clock with
  | none => Except.error 1
  | some ts => Except.ok ts

/-- Lines 281-289: the rate sample taken when the second of the monotonic clock changed. -/
def rateSample (o : Options) (statusf : FilePtr) (tv2 : Timespec) (s : LoopState) : Step :=
  if s.tv.tv_sec ≠ tv2.tv_sec then
    let speed := wrap64 (s.datalen + 2 ^ 64 - s.last_datalen)
    let s1 := { s with speed := speed, last_datalen := s.datalen, tv := tv2 }
    if !o.fancy then
      if statusf = FilePtr.null then Step.undefined s1
      else Step.next { s1 with status := s1.status ++ [StatusEvent.rawLine statusf speed] }
    else Step.next s1
  else Step.next s

/-- Lines 262-289: timing, status line and rate sample after a complete write. -/
def afterWrite (o : Options) (statusf : FilePtr) (start : Timespec) (ev : Env)
    (s : LoopState) : Step :=
  match get_mono_time ev.clock with
  | Except.error c => Step.exit c s
  | Except.ok tv2 =>
    if o.fancy && !o.quiet then
      if statusf = FilePtr.null then Step.undefined s
      else
        rateSample o statusf tv2
          { s with status := s.status ++ [StatusEvent.fancyLine statusf
              (time_diff start tv2)
              (unitify unitifyFuel s.datalen o.unit o.dounit)
              (unitify unitifyFuel s.speed o.unit o.dounit)
              ev.ctime (if o.statusfn.isSome then '\n' else '\r')] }
    else rateSample o statusf tv2 s

/-- Lines 240-289: the body of the transfer loop. -/
def loopBody (o : Options) (statusf : FilePtr) (start : Timespec) (ev : Env)
    (s : LoopState) : Step :=
  -- lines 241-243: `fgetc`, test for `EOF`, `ungetc`
  match streamRead s.stdin ev.readFault 1 with
  | [] => Step.brk { s with stdinErr := s.stdinErr || streamErr s.stdin ev.readFault 1 }
  | _ :: _ =>
    -- line 245: `fread`
    let chunk := streamRead s.stdin ev.readFault o.bufsize
    let n := chunk.length
    let s1 := { s with stdin := s.stdin.drop n,
                       stdinErr := s.stdinErr || streamErr s.stdin ev.readFault o.bufsize }
    if n = 0 then
      if s1.stdinErr && o.errout then Step.exit 1 s1 else Step.brk s1
    else
      -- line 253
      let s2 := { s1 with datalen := wrap64 (s1.datalen + n) }
      -- line 254: `fwrite`
      let written := match ev.writeFault with
        | none => n
        | some k => min k n
      let s3 := { s2 with stdout := s2.stdout ++ [{ data := chunk.take written, requested := n }] }
      if written ≠ n then
        if o.errout then Step.exit 1 s3 else Step.brk s3
      else afterWrite o statusf start ev s3

/-- How the transfer loop stands after the iterations described by the environment. -/
inductive LoopEnd where
  /-- the loop has not ended yet: the next iteration is not described -/
  | running (s : LoopState)
  /-- the loop was left by its test or by `break`; control is at line 291 -/
  | left (s : LoopState)
  /-- the program ended with the given status -/
  | exited (code : Nat) (s : LoopState)
  /-- no defined behaviour -/
  | undefined (s : LoopState)
  deriving Repr

/-- The state in which the loop stands. -/
def LoopEnd.state : LoopEnd → LoopState
  | .running s => s
  | .left s => s
  | .exited _ s => s
  | .undefined s => s

/-- Lines 234-290: `while (!done) { ... }`, one element of the list per iteration. -/
def mainLoop (o : Options) (statusf : FilePtr) (start : Timespec) :
    List Env → LoopState → LoopEnd
  | [], s => LoopEnd.running s
  | ev :: rest, s =>
    if ev.done then LoopEnd.left s
    else
      match loopBody o statusf start ev s with
      | Step.next s1 => mainLoop o statusf start rest s1
      | Step.brk s1 => LoopEnd.left s1
      | Step.exit c s1 => LoopEnd.exited c s1
      | Step.undefined s1 => LoopEnd.undefined s1

/-- The loop variables as initialised on line 144 and by `start = tv` (line 219). -/
def initState (start : Timespec) (input : List Nat) : LoopState :=
  { datalen := 0, last_datalen := 0, speed := 0, tv := start,
    stdin := input, stdinErr := false, stdout := [], status := [] }

/-- Bytes that reached standard output, in order. -/
def outputBytes (s : LoopState) : List Nat := (s.stdout.map WriteRec.data).flatten

/-- Sum of the sizes of the chunks whose write completed. -/
def successfulBytes (s : LoopState) : Nat :=
  ((s.stdout.filter WriteRec.complete).map fun w => w.data.length).sum

/-! ## main: start-up, summary and exit -/

/-- Results of the library calls that `main` makes outside the transfer loop, the
input, and the course of the loop. -/
structure World where
  /-- whether `fopen` of the status file succeeds -/
  fopenOk : Bool
  /-- result of the first `clock_gettime` (line 218) -/
  clock0 : Option Timespec
  /-- whether `signal(SIGINT, sigint)` succeeds -/
  signalOk : Bool
  /-- whether `malloc` of the given size succeeds -/
  mallocOk : Nat → Bool
  /-- bytes that standard input holds -/
  input : List Nat
  /-- course of the transfer loop, iteration by iteration -/
  envs : List Env
  /-- result of the last `clock_gettime` (line 297) -/
  clockEnd : Option Timespec

/-- Lines 161 and 208-215: the status sink after the attempt to open the status file;
`Except.error 1` stands for `return 1`.  The assignment inside the condition of line 209
stores the result of `fopen` in `statusf` whether or not it is null. -/
def openStatus (o : Options) (fopenOk : Bool) : Except Nat FilePtr :=
  let statusf0 := FilePtr.stderr
  match o.statusfn with
  | none => Except.ok statusf0
  | some fn =>
    let statusf := if fopenOk then FilePtr.file fn else FilePtr.null
    if statusf = FilePtr.null then
      if o.errout then Except.error 1 else Except.ok statusf
    else Except.ok statusf

/-- Lines 228-232: `while (!(buffer = malloc(bufsize))) { bufsize >>= 1; if (bufsize <
1024) return 1; }`; the result is the final `bufsize`, or `none` for `return 1`.  The
first argument bounds the evaluations of the loop condition (33 suffice for a 32-bit
`bufsize`, which is halved each time). -/
def allocBuffer (mallocOk : Nat → Bool) : Nat → Nat → Option Nat
  | 0, _ => none
  | fuel + 1, bufsize =>
    if mallocOk bufsize then some bufsize
    else if bufsize / 2 < 1024 then none
    else allocBuffer mallocOk fuel (bufsize / 2)

/-- How a run of the program ends. -/
inductive Ending where
  /-- the program returned the given exit status -/
  | exit (code : Nat)
  /-- the transfer loop has not ended within the iterations described -/
  | running
  /-- the program left defined behaviour (a null `FILE *` was used) -/
  | undefined
  deriving DecidableEq, Repr

/-- A run of the program: how it ended, the status sink it used, and the final state of
the loop variables and streams. -/
structure Outcome where
  ending : Ending
  statusf : FilePtr
  state : LoopState
  deriving Repr

/-- Lines 293-315: the summary and the end of `main`.  The third text of the summary,
the average rate, is computed in double-precision floating point (lines 299-300 and 311);
it is given by `summaryRate` and is not part of the record. -/
def summaryStep (o : Options) (statusf : FilePtr) (start : Timespec)
    (clockEnd : Option Timespec) (s : LoopState) : Outcome :=
  if o.summary then
    match get_mono_time clockEnd with
    | Except.error c => { ending := Ending.exit c, statusf := statusf, state := s }
    | Except.ok tv2 =>
      if statusf = FilePtr.null then
        { ending := Ending.undefined, statusf := statusf, state := s }
      else
        { ending := Ending.exit 0, statusf := statusf,
          state := { s with status := s.status ++ [StatusEvent.summaryLine statusf
            (if o.statusfn.isSome then '\n' else '\r')
            (unitify unitifyFuel s.datalen o.unit o.dounit)
            (time_diff start tv2)] } }
  else if o.statusfn.isSome && statusf = FilePtr.null then
    -- line 314: `fclose` of a null pointer
    { ending := Ending.undefined, statusf := statusf, state := s }
  else { ending := Ending.exit 0, statusf := statusf, state := s }

/-- Lines 208-315 of `main`, for options already parsed by the `getopt` loop. -/
def main (o : Options) (w : World) : Outcome :=
  let untouched := initState ⟨0, 0⟩ w.input
  match openStatus o w.fopenOk with
  | Except.error c => { ending := Ending.exit c, statusf := FilePtr.null, state := untouched }
  | Except.ok statusf =>
    match get_mono_time w.clock0 with
    | Except.error c => { ending := Ending.exit c, statusf := statusf, state := untouched }
    | Except.ok start =>
      if !w.signalOk && o.errout then
        { ending := Ending.exit 1, statusf := statusf, state := initState start w.input }
      else
        match allocBuffer w.mallocOk 33 o.bufsize with
        | none => { ending := Ending.exit 1, statusf := statusf, state := initState start w.input }
        | some bufsize =>
          match mainLoop { o with bufsize := bufsize } statusf start w.envs
              (initState start w.input) with
          | LoopEnd.running s => { ending := Ending.running, statusf := statusf, state := s }
          | LoopEnd.exited c s => { ending := Ending.exit c, statusf := statusf, state := s }
          | LoopEnd.undefined s => { ending := Ending.undefined, statusf := statusf, state := s }
          | LoopEnd.left s => summaryStep o statusf start w.clockEnd s

/-- The state in which an iteration ends. -/
def Step.state : Step → LoopState
  | .next s => s
  | .brk s => s
  | .exit _ s => s
  | .undefined s => s

/-- An iteration without cancellation request, read failure or write failure. -/
def Env.clean (ev : Env) : Bool :=
  !ev.done && ev.readFault.isNone && ev.writeFault.isNone

/-- The iteration without cancellation request and without read or write failure in
which the clock reading has the given result. -/
def calmEnv (clock : Option Timespec) : Env :=
  { done := false, readFault := none, writeFault := none, clock := clock, ctime := "" }

/-- The iteration without cancellation request and without read failure in which
`fwrite` fails after `k` bytes and the clock reading has the given result. -/
def writeFaultEnv (k : Nat) (clock : Option Timespec) : Env :=
  { done := false, readFault := none, writeFault := some k, clock := clock, ctime := "" }

/-- A world in which the first clock reading gives zero and `signal` and `malloc`
succeed. -/
def plainWorld (fopenOk : Bool) (input : List Nat) (envs : List Env)
    (clockEnd : Option Timespec) : World :=
  { fopenOk := fopenOk, clock0 := some ⟨0, 0⟩, signalOk := true, mallocOk := fun _ => true,
    input := input, envs := envs, clockEnd := clockEnd }

/-- An iteration in which the monotonic clock can be read. -/
def Env.clockOk (ev : Env) : Bool := ev.clock.isSome

/-! ## Summary: the average rate in binary64 arithmetic

Lines 299-300 and 311 compute in `double`.  A finite binary64 number is a significand
times a power of two; every operation returns the exact result rounded to the nearest
number with a 53-bit significand, ties going to the even significand (every operation
is evaluated in `double`, as on x86-64).  The exponent is unbounded here: the program's operands are `long` and `uint64_t` values and the constant
`1e9`, so no intermediate result is large or small enough to overflow or to become
subnormal in the 11-bit exponent of binary64. -/

/-- Number of binary digits of a natural number; the first argument bounds the number
of digits. -/
def bitLen : Nat → Nat → Nat
  | 0, _ => 0
  | fuel + 1, n => if n = 0 then 0 else bitLen fuel (n / 2) + 1

/-- A finite `double`: the number `sig * 2 ^ exp`. -/
structure Double where
  sig : Int
  exp : Int
  deriving DecidableEq, Repr

/-- Value of a `double` as a rational number. -/
def Double.val (d : Double) : ℚ := (d.sig : ℚ) * (2 : ℚ) ^ d.exp

/-- The quotient `N / D` rounded to the nearest integer, ties to even. -/
def roundDiv (N D : Nat) : Nat :=
  if 2 * (N % D) > D ∨ (2 * (N % D) = D ∧ N / D % 2 = 1) then N / D + 1 else N / D

/-- Numerator and denominator of `P / q / 2 ^ t`. -/
def scaled (P q : Nat) (t : Int) : Nat × Nat :=
  if 0 ≤ t then (P, q * 2 ^ t.toNat) else (P * 2 ^ (-t).toNat, q)

/-- The exponent `t` at which `P / q / 2 ^ t` lies in `[2 ^ 52, 2 ^ 53)`, for positive
`P` and `q`: 53 less than the difference of the digit counts, or one more. -/
def binade (P q : Nat) : Int :=
  let t0 : Int := (bitLen P P : Int) - (bitLen q q : Int) - 53
  if (scaled P q t0).1 < 2 ^ 53 * (scaled P q t0).2 then t0 else t0 + 1

/-- The `double` nearest to `p / q * 2 ^ k`, ties to even (the rounding mode in force in
the program), for a positive `q`. -/
def Double.round (p : Int) (q : Nat) (k : Int) : Double :=
  if p = 0 then ⟨0, 0⟩
  else
    ⟨p.sign * (roundDiv (scaled p.natAbs q (binade p.natAbs q)).1
        (scaled p.natAbs q (binade p.natAbs q)).2 : Nat), binade p.natAbs q + k⟩

/-- Conversion of a `long` or a `uint64_t` to `double`. -/
def Double.ofInt (n : Int) : Double := Double.round n 1 0

/-- Division of two `double`s, for a divisor other than zero.  Both divisions of the
program have a positive divisor: the constant `1e9`, and `seconds` under the test
`seconds > 0`. -/
def Double.div (a b : Double) : Double :=
  Double.round (a.sig * b.sig.sign) b.sig.natAbs (a.exp - b.exp)

/-- Addition of two `double`s. -/
def Double.add (a b : Double) : Double :=
  Double.round (a.sig * 2 ^ (a.exp - min a.exp b.exp).toNat +
    b.sig * 2 ^ (b.exp - min a.exp b.exp).toNat) 1 (min a.exp b.exp)

/-- The conversion `(uint64_t)` of a `double`: truncation towards zero; no result when
the truncated value is not a `uint64_t` (the conversion is then undefined). -/
def Double.toUInt64 (d : Double) : Option Nat :=
  let t : Int := if 0 ≤ d.exp then d.sig * 2 ^ d.exp.toNat else d.sig.tdiv (2 ^ (-d.exp).toNat)
  if 0 ≤ t ∧ t < 2 ^ 64 then some t.toNat else none

/-- Lines 299-300: `seconds = (tv2.tv_sec - start.tv_sec) + (tv2.tv_nsec -
start.tv_nsec) / 1e9`.  The two differences are `long`s; the second is converted to
`double` and divided by `1e9`, the first is converted to `double` and added. -/
def summarySeconds (start tv2 : Timespec) : Double :=
  Double.add (Double.ofInt (wrapLong (tv2.tv_sec - start.tv_sec)))
    (Double.div (Double.ofInt (wrapLong (tv2.tv_nsec - start.tv_nsec)))
      (Double.ofInt 1000000000))

/-- Line 311: `seconds > 0 ? (uint64_t)(datalen/seconds) : 0`, the average rate handed
to `unitify`. -/
def summaryRate (datalen : Nat) (start tv2 : Timespec) : Option Nat :=
  if 0 < (summarySeconds start tv2).sig then
    Double.toUInt64 (Double.div (Double.ofInt datalen) (summarySeconds start tv2))
  else some 0

/-- The average rate in the words of the specification: the total byte count divided by
the elapsed seconds, truncated to an integer (elapsed time in nanoseconds, so the
quotient is `datalen * 10 ^ 9 / nanoseconds`). -/
def exactAverage (datalen : Nat) (start tv2 : Timespec) : Int :=
  ((datalen : Int) * 1000000000).tdiv (tv2.nanos - start.nanos)

/-! ## Lemmas on unitify -/

theorem scaleLoop_mono (W : Nat → Nat) (nunit : Nat) :
    ∀ (f f2 e v : Nat) (r : Nat × Nat), scaleLoop W nunit f e v = some r → f ≤ f2 →
      scaleLoop W nunit f2 e v = some r := by
  intro f
  induction f with
  | zero => intro f2 e v r h; simp [scaleLoop] at h
  | succ f ih =>
    intro f2 e v r h hle
    obtain ⟨g, rfl⟩ : ∃ g, f2 = g + 1 := ⟨f2 - 1, by omega⟩
    simp only [scaleLoop] at h ⊢
    by_cases hv : v > W (100 * nunit)
    · simp only [hv, if_true] at h ⊢
      by_cases h0 : nunit = 0
      · simp [h0] at h
      · simp only [h0, if_false] at h ⊢
        exact ih g (e + 1) (v / nunit) r h (by omega)
    · simp only [hv, if_false] at h ⊢
      exact h

theorem scaleLoop_total (W : Nat → Nat) (nunit : Nat) (hn : 2 ≤ nunit) :
    ∀ (k fuel e v : Nat), v < 2 ^ k → k < fuel →
      ∃ e2 v2, scaleLoop W nunit fuel e v = some (e2, v2) := by
  intro k
  induction k with
  | zero =>
    intro fuel e v hv hf
    obtain ⟨g, rfl⟩ : ∃ g, fuel = g + 1 := ⟨fuel - 1, by omega⟩
    have hv0 : v = 0 := by simpa using hv
    exact ⟨e, v, by simp [scaleLoop, hv0]⟩
  | succ k ih =>
    intro fuel e v hv hf
    obtain ⟨g, rfl⟩ : ∃ g, fuel = g + 1 := ⟨fuel - 1, by omega⟩
    simp only [scaleLoop]
    by_cases hgt : v > W (100 * nunit)
    · have h0 : nunit ≠ 0 := by omega
      simp only [hgt, if_true, h0, if_false]
      apply ih g (e + 1) (v / nunit) _ (by omega)
      have h1 : v / nunit ≤ v / 2 := Nat.div_le_div_left hn (by decide)
      have h2 : v < 2 * 2 ^ k := by rw [pow_succ] at hv; omega
      omega
    · exact ⟨e, v, by simp [hgt]⟩

theorem scaleLoop_bound (W : Nat → Nat) (nunit : Nat) (hn : 1 ≤ nunit)
    (hW : W (100 * nunit) = 100 * nunit) :
    ∀ (k fuel e v : Nat), v ≤ 100 * nunit * nunit ^ k → k < fuel →
      ∃ e2 v2, scaleLoop W nunit fuel e v = some (e2, v2) ∧ e2 ≤ e + k := by
  intro k
  induction k with
  | zero =>
    intro fuel e v hv hf
    obtain ⟨g, rfl⟩ : ∃ g, fuel = g + 1 := ⟨fuel - 1, by omega⟩
    have hle : ¬ v > W (100 * nunit) := by rw [hW]; simpa using hv
    exact ⟨e, v, by simp [scaleLoop, hle], by omega⟩
  | succ k ih =>
    intro fuel e v hv hf
    obtain ⟨g, rfl⟩ : ∃ g, fuel = g + 1 := ⟨fuel - 1, by omega⟩
    simp only [scaleLoop]
    by_cases hgt : v > W (100 * nunit)
    · have h0 : nunit ≠ 0 := by omega
      simp only [hgt, if_true, h0, if_false]
      have hdiv : v / nunit ≤ 100 * nunit * nunit ^ k := by
        apply Nat.div_le_of_le_mul
        calc v ≤ 100 * nunit * nunit ^ (k + 1) := hv
          _ = nunit * (100 * nunit * nunit ^ k) := by ring
      obtain ⟨e2, v2, h1, h2⟩ := ih g (e + 1) (v / nunit) hdiv (by omega)
      exact ⟨e2, v2, h1, by omega⟩
    · exact ⟨e, v, by simp [hgt], by omega⟩

/-- The two reductions give the same refinement loop when the threshold does not wrap:
the loop only divides. -/
theorem scaleLoop_congr (W1 W2 : Nat → Nat) (nunit : Nat)
    (hW : W1 (100 * nunit) = W2 (100 * nunit)) :
    ∀ (fuel e v : Nat), scaleLoop W1 nunit fuel e v = scaleLoop W2 nunit fuel e v := by
  intro fuel
  induction fuel with
  | zero => intro e v; rfl
  | succ f ih =>
    intro e v
    simp only [scaleLoop, hW, ih]

theorem walkBack_fst (W : Nat → Nat) (nunit : Nat) :
    ∀ (e v : Nat), (walkBack W nunit e v).1 = min e 6 := by
  intro e
  induction e with
  | zero => intro v; simp [walkBack]
  | succ e ih =>
    intro v
    simp only [walkBack]
    by_cases h : e + 1 ≥ 7
    · simp only [h, if_true, ih]; omega
    · simp only [h, if_false]; omega

theorem walkBack_of_le (W : Nat → Nat) (nunit : Nat) (e v : Nat) (h : e ≤ 6) :
    walkBack W nunit e v = (e, v) := by
  cases e with
  | zero => rfl
  | succ e =>
    have h7 : ¬ e + 1 ≥ 7 := by omega
    simp [walkBack, h7]

theorem units_get (i : Nat) (h : i ≤ 6) : ∃ u, units[i]? = some u := by
  interval_cases i <;> simp [units]

/-! ## Claims on unitify -/

/-- C4: for base 1024 and for base 1000, `unitify` with scaling enabled applied to the
count base squared does not take the pre-division branch (tier 0 and the count unchanged
after line 90), the refinement loop divides exactly once (from tier 0 to tier 1) and
leaves the fixed-point value 100 * base, and the tier selected is index 1 with suffix
"k". -/
theorem unitify_base_squared (fuel : Nat) (hf : 2 ≤ fuel) :
    (preDivide wrap64 (1024 * 1024) 1024 = some (0, 1024 * 1024) ∧
      dividePasses wrap64 fuel (1024 * 1024) 1024 = some (1, 100 * 1024) ∧
      unitify fuel (1024 * 1024) 1024 true =
        some { e := 1, val := 100 * 1024, fra := 2, unit := "k" } ∧
      units[1]? = some "k") ∧
    (preDivide wrap64 (1000 * 1000) 1000 = some (0, 1000 * 1000) ∧
      dividePasses wrap64 fuel (1000 * 1000) 1000 = some (1, 100 * 1000) ∧
      unitify fuel (1000 * 1000) 1000 true =
        some { e := 1, val := 100 * 1000, fra := 2, unit := "k" }) := by
  obtain ⟨g, rfl⟩ : ∃ g, fuel = g + 2 := ⟨fuel - 2, by omega⟩
  refine ⟨⟨by decide, ?_, ?_, by decide⟩, ⟨by decide, ?_, ?_⟩⟩ <;>
    simp [unitify, unitifyWith, dividePasses, preDivide, scaleLoop, walkBack, wrap64, units]

theorem unitify_base_squared_witness :
    2 ≤ 65 ∧ unitify 65 (1024 * 1024) 1024 true =
      some { e := 1, val := 100 * 1024, fra := 2, unit := "k" } :=
  ⟨by decide, (unitify_base_squared 65 (by decide)).1.2.2.1⟩

/-- C5: for every count (a 64-bit count in particular: line 91 reduces the count to 64
bits whatever it was) and every unit base of at least 2, the two dividing passes
of `unitify` end (65 evaluations of the loop condition suffice) and `unitify` reads the
suffix table at an index between 0 and 6; the index is the tier the passes left, or 6
with suffix "E" when they left 7 or more.  For count 2^20 and base 2 the passes leave
tier 19 and `unitify` selects tier 6, "E". -/
theorem unitify_index_in_table (fuel _in nunit : Nat) (hn : 2 ≤ nunit) (hf : 65 ≤ fuel) :
    (∃ e1 v1 r, dividePasses wrap64 fuel _in nunit = some (e1, v1) ∧
      unitify fuel _in nunit true = some r ∧
      r.e ≤ 6 ∧ units[r.e]? = some r.unit ∧ r.e = min e1 6 ∧
      (7 ≤ e1 → r.e = 6 ∧ r.unit = "E")) ∧
    dividePasses wrap64 fuel (2 ^ 20) 2 = some (19, 200) ∧
    unitify fuel (2 ^ 20) 2 true = some { e := 6, val := 200 * 2 ^ 13, fra := 2, unit := "E" } := by
  have hpass : ∀ x n : Nat, 2 ≤ n →
      ∃ e1 v1, dividePasses wrap64 fuel x n = some (e1, v1) := by
    intro x n hn2
    have h0 : n ≠ 0 := by omega
    have hloop : ∀ e0 v0 : Nat, ∃ e1 v1,
        scaleLoop wrap64 n fuel e0 (wrap64 (v0 * 100)) = some (e1, v1) := by
      intro e0 v0
      exact scaleLoop_total wrap64 n hn2 64 fuel e0 (wrap64 (v0 * 100))
        (Nat.mod_lt _ (by decide)) (by omega)
    unfold dividePasses preDivide
    by_cases hgt : x > wrap64 (n * n)
    · simp only [hgt, if_true, h0, if_false]; exact hloop _ _
    · simp only [hgt, if_false]; exact hloop _ _
  have hex : dividePasses wrap64 fuel (2 ^ 20) 2 = some (19, 200) := by
    have h65 : dividePasses wrap64 65 (2 ^ 20) 2 = some (19, 200) := by decide
    unfold dividePasses at h65 ⊢
    have hp : preDivide wrap64 (2 ^ 20) 2 = some (1, 2 ^ 19) := by decide
    rw [hp] at h65 ⊢
    exact scaleLoop_mono wrap64 2 65 fuel _ _ _ h65 hf
  refine ⟨?_, hex, ?_⟩
  · obtain ⟨e1, v1, hp⟩ := hpass _in nunit hn
    have hidx : (walkBack wrap64 nunit e1 v1).1 = min e1 6 := walkBack_fst _ _ _ _
    obtain ⟨u, hu⟩ := units_get (walkBack wrap64 nunit e1 v1).1 (by rw [hidx]; omega)
    refine ⟨e1, v1, Unitified.mk (walkBack wrap64 nunit e1 v1).1
      (walkBack wrap64 nunit e1 v1).2 2 u, hp, ?_, ?_, hu, hidx, ?_⟩
    · simp [unitify, unitifyWith, hp, hu]
    · show (walkBack wrap64 nunit e1 v1).1 ≤ 6
      rw [hidx]; omega
    · intro h7
      have h6 : (walkBack wrap64 nunit e1 v1).1 = 6 := by rw [hidx]; omega
      refine ⟨h6, ?_⟩
      show u = "E"
      rw [h6] at hu
      simpa [units] using hu.symm
  · simp only [unitify, unitifyWith, if_true, hex]
    decide

theorem unitify_index_in_table_witness :
    2 ≤ 2 ∧ 65 ≤ 65 ∧
      unitify 65 (2 ^ 20) 2 true =
        some { e := 6, val := 200 * 2 ^ 13, fra := 2, unit := "E" } :=
  ⟨by decide, by decide,
    (unitify_index_in_table 65 (2 ^ 20) 2 (by decide) (by decide)).2.2⟩

/-- C10: for every 64-bit count and for unit base 1000 and unit base 1024, with scaling
enabled, no arithmetic result of `unitify` exceeds 64 bits: `nunit*nunit` and `100*nunit`
are below 2^64, the (possibly pre-divided) count times 100 is below 2^64, the dividing
passes leave a tier of at most 6 so that the walk-back loop never multiplies, and the
result in 64-bit arithmetic exists and equals the result over unbounded integers. -/
theorem unitify_no_wrap (fuel _in nunit : Nat) (hin : _in < 2 ^ 64)
    (hn : nunit = 1000 ∨ nunit = 1024) (hf : 65 ≤ fuel) :
    nunit * nunit < 2 ^ 64 ∧ 100 * nunit < 2 ^ 64 ∧
    (∃ e0 v0, preDivide wrap64 _in nunit = some (e0, v0) ∧ v0 * 100 < 2 ^ 64) ∧
    (∃ e1 v1, dividePasses wrap64 fuel _in nunit = some (e1, v1) ∧ e1 ≤ 6 ∧
      walkBack wrap64 nunit e1 v1 = (e1, v1)) ∧
    (∃ r, unitify fuel _in nunit true = some r) ∧
    unitify fuel _in nunit true = unitifyUnbounded fuel _in nunit true := by
  have hsq : nunit * nunit < 2 ^ 64 := by rcases hn with rfl | rfl <;> decide
  have hth : 100 * nunit < 2 ^ 64 := by rcases hn with rfl | rfl <;> decide
  have hn1 : 1 ≤ nunit := by rcases hn with rfl | rfl <;> decide
  have h0 : nunit ≠ 0 := by omega
  have hWsq : wrap64 (nunit * nunit) = nunit * nunit := Nat.mod_eq_of_lt hsq
  have hWth : wrap64 (100 * nunit) = 100 * nunit := Nat.mod_eq_of_lt hth
  -- the pre-division and the multiplication by 100
  have hpre : ∃ e0 v0, preDivide wrap64 _in nunit = some (e0, v0) ∧
      preDivide id _in nunit = some (e0, v0) ∧ v0 * 100 < 2 ^ 64 ∧
      ∃ k, e0 + k ≤ 6 ∧ v0 * 100 ≤ 100 * nunit * nunit ^ k := by
    by_cases hgt : _in > nunit * nunit
    · refine ⟨1, _in / nunit, by simp [preDivide, hWsq, hgt, h0],
        by simp [preDivide, hgt, h0], ?_, 5, by omega, ?_⟩
      · rcases hn with rfl | rfl <;> omega
      · rcases hn with rfl | rfl <;> norm_num <;> omega
    · refine ⟨0, _in, by simp [preDivide, hWsq, hgt], by simp [preDivide, hgt], ?_, 1, by omega, ?_⟩
      · rcases hn with rfl | rfl <;> omega
      · rcases hn with rfl | rfl <;> norm_num <;> omega
  obtain ⟨e0, v0, hp, hpid, hmul, k, he0, hbnd⟩ := hpre
  have hWmul : wrap64 (v0 * 100) = v0 * 100 := Nat.mod_eq_of_lt hmul
  obtain ⟨e1, v1, hloop, he1⟩ := scaleLoop_bound wrap64 nunit hn1 hWth k fuel e0 (v0 * 100)
    hbnd (by omega)
  have he6 : e1 ≤ 6 := by omega
  have hdp : dividePasses wrap64 fuel _in nunit = some (e1, v1) := by
    simp [dividePasses, hp, hWmul, hloop]
  have hdpid : dividePasses id fuel _in nunit = some (e1, v1) := by
    have hc := scaleLoop_congr id wrap64 nunit (by simp [hWth]) fuel e0 (v0 * 100)
    simp [dividePasses, hpid, hc, hloop]
  have hwb : walkBack wrap64 nunit e1 v1 = (e1, v1) := walkBack_of_le _ _ _ _ he6
  have hwbid : walkBack id nunit e1 v1 = (e1, v1) := walkBack_of_le _ _ _ _ he6
  obtain ⟨u, hu⟩ := units_get e1 he6
  have hres : unitify fuel _in nunit true = some (Unitified.mk e1 v1 2 u) := by
    simp [unitify, unitifyWith, hdp, hwb, hu]
  refine ⟨hsq, hth, ⟨e0, v0, hp, hmul⟩, ⟨e1, v1, hdp, he6, hwb⟩, ⟨_, hres⟩, ?_⟩
  rw [hres]
  simp [unitifyUnbounded, unitifyWith, hdpid, hwbid, hu]

theorem unitify_no_wrap_witness :
    18446744073709551615 < 2 ^ 64 ∧ (1000 = 1000 ∨ 1000 = 1024) ∧ 65 ≤ 65 ∧
      unitify 65 18446744073709551615 1000 true =
        unitifyUnbounded 65 18446744073709551615 1000 true :=
  ⟨by decide, Or.inl rfl, by decide,
    (unitify_no_wrap 65 18446744073709551615 1000 (by decide) (Or.inl rfl) (by decide)).2.2.2.2.2⟩

/-! ## Claims on time_diff -/

theorem wrapLong_eq (x : Int) (h1 : -(2 ^ 63) ≤ x) (h2 : x < 2 ^ 63) : wrapLong x = x := by
  unfold wrapLong
  omega

/-- C6, amended: for a start and an end timestamp whose sub-second components lie in
[0, 10^9), with end not earlier than start and the difference of their seconds below
2^63 (representable in a `long`), the four numbers `time_diff` renders are non-negative, minutes and seconds are
at most 59, hundredths at most 99, and (h*3600 + m*60 + s)*100 + f is the difference
end - start in nanoseconds divided by 10^7, truncated. -/
theorem time_diff_fields (start end_ : Timespec)
    (hs : 0 ≤ start.tv_nsec ∧ start.tv_nsec < 1000000000)
    (he : 0 ≤ end_.tv_nsec ∧ end_.tv_nsec < 1000000000)
    (hle : start.nanos ≤ end_.nanos)
    (hrep : end_.tv_sec - start.tv_sec < 2 ^ 63) :
    0 ≤ (time_diff start end_).hours ∧
    0 ≤ (time_diff start end_).minutes ∧ (time_diff start end_).minutes ≤ 59 ∧
    0 ≤ (time_diff start end_).seconds ∧ (time_diff start end_).seconds ≤ 59 ∧
    0 ≤ (time_diff start end_).hundredths ∧ (time_diff start end_).hundredths ≤ 99 ∧
    ((time_diff start end_).hours * 3600 + (time_diff start end_).minutes * 60 +
        (time_diff start end_).seconds) * 100 + (time_diff start end_).hundredths =
      (end_.nanos - start.nanos).tdiv 10000000 := by
  obtain ⟨ss, sn⟩ := start
  obtain ⟨es, en⟩ := end_
  simp only [Timespec.nanos] at *
  have hsec : 0 ≤ es - ss := by omega
  have hw1 : wrapLong (es - ss) = es - ss := wrapLong_eq _ (by omega) hrep
  have hw2 : wrapLong (en - sn) = en - sn := wrapLong_eq _ (by omega) (by omega)
  have hdiff : 0 ≤ es * 1000000000 + en - (ss * 1000000000 + sn) := by omega
  rw [Int.tdiv_eq_ediv hdiff (by decide)]
  simp only [time_diff, hw1, hw2]
  by_cases hneg : en - sn < 0
  · have hpos : 1 ≤ es - ss := by omega
    have hw3 : wrapLong (es - ss - 1) = es - ss - 1 := wrapLong_eq _ (by omega) (by omega)
    have hw4 : wrapLong (en - sn + 1000000000) = en - sn + 1000000000 :=
      wrapLong_eq _ (by omega) (by omega)
    simp only [hneg, if_true, hw3, hw4]
    have hS : 0 ≤ es - ss - 1 := by omega
    have hN : 0 ≤ en - sn + 1000000000 := by omega
    have hq : 0 ≤ (es - ss - 1) / 60 := Int.ediv_nonneg hS (by decide)
    rw [Int.tdiv_eq_ediv hS (by decide), Int.tdiv_eq_ediv hS (by decide),
      Int.tmod_eq_emod hq (by decide), Int.tmod_eq_emod hS (by decide),
      Int.tdiv_eq_ediv hN (by decide)]
    omega
  · simp only [hneg, if_false]
    have hN : 0 ≤ en - sn := by omega
    have hq : 0 ≤ (es - ss) / 60 := Int.ediv_nonneg hsec (by decide)
    rw [Int.tdiv_eq_ediv hsec (by decide), Int.tdiv_eq_ediv hsec (by decide),
      Int.tmod_eq_emod hq (by decide), Int.tmod_eq_emod hsec (by decide),
      Int.tdiv_eq_ediv hN (by decide)]
    omega

theorem time_diff_fields_witness :
    time_diff ⟨10, 900000000⟩ ⟨12, 100000000⟩ =
        { hours := 0, minutes := 0, seconds := 1, hundredths := 20 } ∧
      ((time_diff ⟨10, 900000000⟩ ⟨12, 100000000⟩).hours * 3600 +
          (time_diff ⟨10, 900000000⟩ ⟨12, 100000000⟩).minutes * 60 +
          (time_diff ⟨10, 900000000⟩ ⟨12, 100000000⟩).seconds) * 100 +
          (time_diff ⟨10, 900000000⟩ ⟨12, 100000000⟩).hundredths =
        (Timespec.nanos ⟨12, 100000000⟩ - Timespec.nanos ⟨10, 900000000⟩).tdiv 10000000 :=
  ⟨by decide,
    (time_diff_fields ⟨10, 900000000⟩ ⟨12, 100000000⟩ (by decide) (by decide) (by decide)
      (by decide)).2.2.2.2.2.2.2⟩

/-- C6 as stated fails when the difference of the seconds is not representable in a
`long`: for start = -1 s and end = 2^63 - 1 s, both with sub-second component 0 and end
later than start, the subtraction of line 114 wraps and `time_diff` renders a negative
number of hours. -/
theorem time_diff_wraps :
    (0 ≤ (⟨-1, 0⟩ : Timespec).tv_nsec ∧ (⟨-1, 0⟩ : Timespec).tv_nsec < 1000000000) ∧
    (0 ≤ (⟨2 ^ 63 - 1, 0⟩ : Timespec).tv_nsec ∧
      (⟨2 ^ 63 - 1, 0⟩ : Timespec).tv_nsec < 1000000000) ∧
    Timespec.nanos ⟨-1, 0⟩ ≤ Timespec.nanos ⟨2 ^ 63 - 1, 0⟩ ∧
    (time_diff ⟨-1, 0⟩ ⟨2 ^ 63 - 1, 0⟩).hours = -2562047788015215 ∧
    ¬ 0 ≤ (time_diff ⟨-1, 0⟩ ⟨2 ^ 63 - 1, 0⟩).hours := by
  decide

/-! ## Lemmas on the transfer loop -/

/-- The rate sample leaves the streams and the total alone; the last-sampled total
either stays or becomes the total. -/
theorem rateSample_frame (o : Options) (statusf : FilePtr) (tv2 : Timespec) (s : LoopState) :
    (rateSample o statusf tv2 s).state.stdin = s.stdin ∧
    (rateSample o statusf tv2 s).state.stdout = s.stdout ∧
    (rateSample o statusf tv2 s).state.datalen = s.datalen ∧
    ((rateSample o statusf tv2 s).state.last_datalen = s.last_datalen ∨
      (rateSample o statusf tv2 s).state.last_datalen = s.datalen) := by
  unfold rateSample
  by_cases h1 : s.tv.tv_sec ≠ tv2.tv_sec
  · by_cases h2 : o.fancy = true
    · simp [h1, h2, Step.state]
    · by_cases h3 : statusf = FilePtr.null
      · simp [h1, h2, h3, Step.state]
      · simp [h1, h2, h3, Step.state]
  · simp [h1, Step.state]

theorem afterWrite_frame (o : Options) (statusf : FilePtr) (start : Timespec) (ev : Env)
    (s : LoopState) :
    (afterWrite o statusf start ev s).state.stdin = s.stdin ∧
    (afterWrite o statusf start ev s).state.stdout = s.stdout ∧
    (afterWrite o statusf start ev s).state.datalen = s.datalen ∧
    ((afterWrite o statusf start ev s).state.last_datalen = s.last_datalen ∨
      (afterWrite o statusf start ev s).state.last_datalen = s.datalen) := by
  unfold afterWrite
  cases hc : ev.clock with
  | none => simp [get_mono_time, Step.state]
  | some tv2 =>
    simp only [get_mono_time]
    by_cases h1 : (o.fancy && !o.quiet) = true
    · by_cases h2 : statusf = FilePtr.null
      · simp [h1, h2, Step.state]
      · simp only [h1, h2, if_true, if_false]
        exact rateSample_frame o statusf tv2 _
    · simp only [h1, if_false, Bool.false_eq_true]
      exact rateSample_frame o statusf tv2 s

/-- With a usable status sink the rate sample runs to the end of the loop body. -/
theorem rateSample_next (o : Options) (statusf : FilePtr) (tv2 : Timespec) (s : LoopState)
    (hf : statusf ≠ FilePtr.null) :
    ∃ s1, rateSample o statusf tv2 s = Step.next s1 := by
  unfold rateSample
  split_ifs
  · exact ⟨_, rfl⟩
  · exact ⟨_, rfl⟩
  · exact ⟨_, rfl⟩

theorem afterWrite_next (o : Options) (statusf : FilePtr) (start : Timespec) (ev : Env)
    (s : LoopState) (hf : statusf ≠ FilePtr.null) (hc : ev.clockOk = true) :
    ∃ s1, afterWrite o statusf start ev s = Step.next s1 := by
  unfold afterWrite
  cases hcl : ev.clock with
  | none => simp [Env.clockOk, hcl] at hc
  | some tv2 =>
    simp only [get_mono_time]
    by_cases h1 : (o.fancy && !o.quiet) = true
    · simp only [h1, hf, if_true, if_false]
      exact rateSample_next o statusf tv2 _ hf
    · simp only [h1, if_false, Bool.false_eq_true]
      exact rateSample_next o statusf tv2 s hf

theorem afterWrite_inv (o : Options) (statusf : FilePtr) (start : Timespec) (ev : Env)
    (t : LoopState) (N : Nat) (h1 : t.last_datalen ≤ t.datalen)
    (h2 : t.datalen + t.stdin.length = N) :
    (afterWrite o statusf start ev t).state.last_datalen ≤
        (afterWrite o statusf start ev t).state.datalen ∧
    (afterWrite o statusf start ev t).state.datalen +
        (afterWrite o statusf start ev t).state.stdin.length = N := by
  obtain ⟨f1, _, f3, f4⟩ := afterWrite_frame o statusf start ev t
  rw [f1, f3]
  refine ⟨?_, h2⟩
  rcases f4 with f4 | f4
  · rw [f4]; omega
  · rw [f4]

theorem streamRead_length_le (avail : List Nat) (fault : Option Nat) (want : Nat) :
    (streamRead avail fault want).length ≤ avail.length ∧
    (streamRead avail fault want).length ≤ want := by
  cases fault with
  | none => simp [streamRead]
  | some k => simp only [streamRead, List.length_take]; omega

/-- One iteration keeps the last-sampled total at or below the total, and keeps the sum
of the total and the unread input, as long as that sum fits 64 bits. -/
theorem loopBody_inv (o : Options) (statusf : FilePtr) (start : Timespec) (ev : Env)
    (s : LoopState) (N : Nat) (hN : N < 2 ^ 64) (h1 : s.last_datalen ≤ s.datalen)
    (h2 : s.datalen + s.stdin.length = N) :
    (loopBody o statusf start ev s).state.last_datalen ≤
        (loopBody o statusf start ev s).state.datalen ∧
    (loopBody o statusf start ev s).state.datalen +
        (loopBody o statusf start ev s).state.stdin.length = N := by
  have hlen := streamRead_length_le s.stdin ev.readFault o.bufsize
  have hw : wrap64 (s.datalen + (streamRead s.stdin ev.readFault o.bufsize).length) =
      s.datalen + (streamRead s.stdin ev.readFault o.bufsize).length :=
    Nat.mod_eq_of_lt (by omega)
  unfold loopBody
  split
  · simp [Step.state, h1, h2]
  · simp only []
    split_ifs with hz he hw2 he2
    · simp only [Step.state, List.length_drop]; omega
    · simp only [Step.state, List.length_drop]; omega
    · simp only [Step.state, List.length_drop, hw]; omega
    · simp only [Step.state, List.length_drop, hw]; omega
    · apply afterWrite_inv
      · simp only [hw]; omega
      · simp only [hw, List.length_drop]; omega

/-- One iteration keeps the last-sampled total at or below the total when the addition
of line 253 does not wrap. -/
theorem loopBody_last_le (o : Options) (statusf : FilePtr) (start : Timespec) (ev : Env)
    (s : LoopState) (h1 : s.last_datalen ≤ s.datalen)
    (h2 : s.datalen + (streamRead s.stdin ev.readFault o.bufsize).length < 2 ^ 64) :
    (loopBody o statusf start ev s).state.last_datalen ≤
      (loopBody o statusf start ev s).state.datalen := by
  have hw : wrap64 (s.datalen + (streamRead s.stdin ev.readFault o.bufsize).length) =
      s.datalen + (streamRead s.stdin ev.readFault o.bufsize).length :=
    Nat.mod_eq_of_lt h2
  unfold loopBody
  split
  · simp [Step.state, h1]
  · simp only []
    split_ifs with hz he hw2 he2
    · simp only [Step.state]; omega
    · simp only [Step.state]; omega
    · simp only [Step.state, hw]; omega
    · simp only [Step.state, hw]; omega
    · refine (afterWrite_inv o statusf start ev _ _ ?_ rfl).1
      simp only [hw]; omega

theorem mainLoop_inv (o : Options) (statusf : FilePtr) (start : Timespec) (N : Nat)
    (hN : N < 2 ^ 64) :
    ∀ (envs : List Env) (s : LoopState), s.last_datalen ≤ s.datalen →
      s.datalen + s.stdin.length = N →
      (mainLoop o statusf start envs s).state.last_datalen ≤
          (mainLoop o statusf start envs s).state.datalen ∧
      (mainLoop o statusf start envs s).state.datalen +
          (mainLoop o statusf start envs s).state.stdin.length = N := by
  intro envs
  induction envs with
  | nil => intro s h1 h2; exact ⟨h1, h2⟩
  | cons ev rest ih =>
    intro s h1 h2
    have hb := loopBody_inv o statusf start ev s N hN h1 h2
    simp only [mainLoop]
    by_cases hd : ev.done = true
    · simp only [hd, if_true]; exact ⟨h1, h2⟩
    · simp only [hd, if_false, Bool.false_eq_true]
      cases hstep : loopBody o statusf start ev s with
      | next s1 =>
        rw [hstep] at hb
        exact ih s1 hb.1 hb.2
      | brk s1 => rw [hstep] at hb; exact hb
      | exit c s1 => rw [hstep] at hb; exact hb
      | undefined s1 => rw [hstep] at hb; exact hb

theorem drop_take_length (b : Nat) (l : List Nat) :
    l.drop (l.take b).length = l.drop b := by
  rw [List.length_take]
  by_cases h : b ≤ l.length
  · rw [Nat.min_eq_left h]
  · have h2 : l.length ≤ b := by omega
    rw [Nat.min_eq_right h2, List.drop_of_length_le h2, List.drop_of_length_le (le_refl _)]

/-- An iteration without faults that finds the input exhausted leaves the loop. -/
theorem loopBody_clean_nil (o : Options) (statusf : FilePtr) (start : Timespec) (ev : Env)
    (s : LoopState) (hc : ev.clean = true) (hs : s.stdin = []) :
    loopBody o statusf start ev s = Step.brk s := by
  have hr : ev.readFault = none := by
    simp only [Env.clean, Bool.and_eq_true, Option.isNone_iff_eq_none] at hc
    exact hc.1.2
  unfold loopBody
  cases s with
  | mk datalen last speed tv stdin stdinErr stdout status =>
    simp only [] at hs
    subst hs
    simp [hr, streamRead, streamErr]

/-- An iteration without faults that finds input transfers one chunk: the next
`bufsize` bytes of the input, or all of it when less is left. -/
theorem loopBody_clean_cons (o : Options) (statusf : FilePtr) (start : Timespec) (ev : Env)
    (s : LoopState) (hc : ev.clean = true) (hk : ev.clockOk = true)
    (hf : statusf ≠ FilePtr.null) (hb : 1 ≤ o.bufsize) (hs : s.stdin ≠ []) :
    ∃ s1, loopBody o statusf start ev s = Step.next s1 ∧
      s1.stdin = s.stdin.drop o.bufsize ∧
      s1.stdout = s.stdout ++
        [{ data := s.stdin.take o.bufsize, requested := (s.stdin.take o.bufsize).length }] ∧
      s1.datalen = wrap64 (s.datalen + (s.stdin.take o.bufsize).length) := by
  simp only [Env.clean, Bool.and_eq_true, Option.isNone_iff_eq_none] at hc
  obtain ⟨⟨_, hr⟩, hw⟩ := hc
  obtain ⟨a, l, hal⟩ : ∃ a l, s.stdin = a :: l := by
    cases h : s.stdin with
    | nil => exact absurd h hs
    | cons a l => exact ⟨a, l, rfl⟩
  have hn : (s.stdin.take o.bufsize).length ≠ 0 := by
    rw [List.length_take, hal, List.length_cons]; omega
  unfold loopBody
  simp only [hr, hw, streamRead, streamErr, Bool.or_false]
  have h1 : List.take 1 s.stdin = [a] := by rw [hal]; rfl
  rw [h1]
  simp only [hn, if_false, ne_eq, not_true_eq_false, List.take_length]
  obtain ⟨s1, hs1⟩ := afterWrite_next o statusf start ev
    { s with stdin := s.stdin.drop (s.stdin.take o.bufsize).length,
             datalen := wrap64 (s.datalen + (s.stdin.take o.bufsize).length),
             stdout := s.stdout ++ [{ data := s.stdin.take o.bufsize,
                                      requested := (s.stdin.take o.bufsize).length }] } hf hk
  obtain ⟨f1, f2, f3, _⟩ := afterWrite_frame o statusf start ev
    { s with stdin := s.stdin.drop (s.stdin.take o.bufsize).length,
             datalen := wrap64 (s.datalen + (s.stdin.take o.bufsize).length),
             stdout := s.stdout ++ [{ data := s.stdin.take o.bufsize,
                                      requested := (s.stdin.take o.bufsize).length }] }
  rw [hs1] at f1 f2 f3
  simp only [Step.state] at f1 f2 f3
  refine ⟨s1, hs1, ?_, f2, f3⟩
  rw [f1, drop_take_length]

theorem outputBytes_snoc (s s1 : LoopState) (w : WriteRec) (h : s1.stdout = s.stdout ++ [w]) :
    outputBytes s1 = outputBytes s ++ w.data := by
  simp [outputBytes, h]

/-- A run without faults of more iterations than the input has bytes leaves the loop by
the end-of-input test, having written the unread input chunk by chunk. -/
theorem mainLoop_clean (o : Options) (statusf : FilePtr) (start : Timespec)
    (hf : statusf ≠ FilePtr.null) (hb : 1 ≤ o.bufsize) :
    ∀ (envs : List Env) (s : LoopState),
      (∀ ev ∈ envs, ev.clean = true ∧ ev.clockOk = true) →
      s.stdin.length < envs.length → s.datalen < 2 ^ 64 →
      ∃ s1, mainLoop o statusf start envs s = LoopEnd.left s1 ∧ s1.stdin = [] ∧
        outputBytes s1 = outputBytes s ++ s.stdin ∧
        (∀ w ∈ s1.stdout, w ∈ s.stdout ∨
          (1 ≤ w.data.length ∧ w.data.length ≤ o.bufsize ∧ w.complete = true)) ∧
        s1.datalen = wrap64 (s.datalen + s.stdin.length) := by
  intro envs
  induction envs with
  | nil => intro s _ hlen _; simp at hlen
  | cons ev rest ih =>
    intro s hall hlen hd
    obtain ⟨hc, hk⟩ := hall ev (List.mem_cons_self _ _)
    have hdone : ev.done = false := by
      simp only [Env.clean, Bool.and_eq_true, Bool.not_eq_true'] at hc
      exact hc.1.1
    simp only [mainLoop, hdone, Bool.false_eq_true, if_false]
    by_cases hs : s.stdin = []
    · rw [loopBody_clean_nil o statusf start ev s hc hs]
      refine ⟨s, rfl, hs, by simp [hs], fun w hw => Or.inl hw, ?_⟩
      simp only [hs, List.length_nil, Nat.add_zero, wrap64]
      exact (Nat.mod_eq_of_lt hd).symm
    · obtain ⟨s1, hstep, h1, h2, h3⟩ :=
        loopBody_clean_cons o statusf start ev s hc hk hf hb hs
      rw [hstep]
      have hpos : 0 < s.stdin.length := List.length_pos.mpr hs
      have hlen1 : s1.stdin.length < rest.length := by
        rw [h1, List.length_drop]
        simp only [List.length_cons] at hlen
        omega
      have hd1 : s1.datalen < 2 ^ 64 := by
        rw [h3]; exact Nat.mod_lt _ (by decide)
      obtain ⟨s2, hrun, g1, g2, g3, g4⟩ :=
        ih s1 (fun e he => hall e (List.mem_cons_of_mem _ he)) hlen1 hd1
      refine ⟨s2, hrun, g1, ?_, ?_, ?_⟩
      · rw [g2, outputBytes_snoc s s1 _ h2, h1, List.append_assoc, List.take_append_drop]
      · intro w hw
        rcases g3 w hw with hin | hnew
        · rw [h2, List.mem_append, List.mem_singleton] at hin
          rcases hin with hin | rfl
          · exact Or.inl hin
          · refine Or.inr ⟨?_, ?_, by simp [WriteRec.complete]⟩
            · simp only [List.length_take]; omega
            · simp only [List.length_take]; omega
        · exact Or.inr hnew
      · rw [g4, h3, h1, List.length_drop, List.length_take]
        simp only [wrap64]
        rw [Nat.mod_add_mod]
        congr 1
        omega

/-! ## Claims on the transfer loop -/

/-- C9: in every state the transfer loop can reach from total 0 and last-sampled total
0, for an input shorter than 2^64 bytes (so that the total stays below 2^64), the
last-sampled total `last_datalen` is at most the total `datalen`, and the interval rate
`datalen - last_datalen` of line 282 does not wrap around; every iteration of the loop
body whose addition to the total stays below 2^64 keeps `last_datalen ≤ datalen`,
whether or not it takes a rate sample. -/
theorem last_datalen_le_datalen (o : Options) (statusf : FilePtr) (start : Timespec)
    (input : List Nat) (envs : List Env) (hlen : input.length < 2 ^ 64) :
    (mainLoop o statusf start envs (initState start input)).state.last_datalen ≤
        (mainLoop o statusf start envs (initState start input)).state.datalen ∧
    (mainLoop o statusf start envs (initState start input)).state.datalen < 2 ^ 64 ∧
    wrap64 ((mainLoop o statusf start envs (initState start input)).state.datalen + 2 ^ 64 -
        (mainLoop o statusf start envs (initState start input)).state.last_datalen) =
      (mainLoop o statusf start envs (initState start input)).state.datalen -
        (mainLoop o statusf start envs (initState start input)).state.last_datalen ∧
    (∀ (ev : Env) (s : LoopState), s.last_datalen ≤ s.datalen →
      s.datalen + (streamRead s.stdin ev.readFault o.bufsize).length < 2 ^ 64 →
      (loopBody o statusf start ev s).state.last_datalen ≤
        (loopBody o statusf start ev s).state.datalen) := by
  obtain ⟨h1, h2⟩ := mainLoop_inv o statusf start input.length hlen envs
    (initState start input) (by simp [initState]) (by simp [initState])
  refine ⟨h1, by omega, ?_, ?_⟩
  · unfold wrap64
    omega
  · intro ev s hs1 hs2
    exact loopBody_last_le o statusf start ev s hs1 hs2

theorem last_datalen_le_datalen_witness :
    [1, 2, 3].length < 2 ^ 64 ∧
      (mainLoop { bufsize := 2 } FilePtr.stderr ⟨5, 0⟩
          [calmEnv (some ⟨6, 0⟩)]
          (initState ⟨5, 0⟩ [1, 2, 3])).state.last_datalen ≤
        (mainLoop { bufsize := 2 } FilePtr.stderr ⟨5, 0⟩
          [calmEnv (some ⟨6, 0⟩)]
          (initState ⟨5, 0⟩ [1, 2, 3])).state.datalen :=
  ⟨by decide, (last_datalen_le_datalen _ _ _ _ _ (by decide)).1⟩

/-- C2, amended: for every finite input byte sequence and every buffer capacity of at
least one byte, if no read or write fails, no cancellation is requested, every reading
of the monotonic clock succeeds and the status sink is an open stream, the transfer loop
ends (within one iteration more than the input has bytes) by leaving at the end-of-input
test, the concatenation in order of the chunks written to output is the input byte
sequence, and every chunk is a complete write of at least one and at most `bufsize`
bytes. -/
theorem transfer_transparent (o : Options) (statusf : FilePtr) (start : Timespec)
    (input : List Nat) (envs : List Env) (hb : 1 ≤ o.bufsize)
    (hf : statusf ≠ FilePtr.null)
    (hclean : ∀ ev ∈ envs, ev.clean = true) (hclock : ∀ ev ∈ envs, ev.clockOk = true)
    (hlen : input.length < envs.length) :
    ∃ s1, mainLoop o statusf start envs (initState start input) = LoopEnd.left s1 ∧
      s1.stdin = [] ∧ outputBytes s1 = input ∧
      (∀ w ∈ s1.stdout,
        1 ≤ w.data.length ∧ w.data.length ≤ o.bufsize ∧ w.complete = true) := by
  obtain ⟨s1, hrun, g1, g2, g3, _⟩ := mainLoop_clean o statusf start hf hb envs
    (initState start input) (fun ev he => ⟨hclean ev he, hclock ev he⟩) hlen
    (by simp [initState])
  refine ⟨s1, hrun, g1, ?_, ?_⟩
  · rw [g2]; simp [outputBytes, initState]
  · intro w hw
    rcases g3 w hw with hin | hnew
    · simp [initState] at hin
    · exact hnew

theorem transfer_transparent_witness :
    ∃ s1, mainLoop { bufsize := 2 } FilePtr.stderr ⟨5, 0⟩
        (List.replicate 4 (calmEnv (some ⟨6, 0⟩)))
        (initState ⟨5, 0⟩ [1, 2, 3]) = LoopEnd.left s1 ∧
      s1.stdin = [] ∧ outputBytes s1 = [1, 2, 3] ∧
      (∀ w ∈ s1.stdout, 1 ≤ w.data.length ∧
        w.data.length ≤ ({ bufsize := 2 } : Options).bufsize ∧ w.complete = true) :=
  transfer_transparent { bufsize := 2 } FilePtr.stderr ⟨5, 0⟩ [1, 2, 3]
    (List.replicate 4 (calmEnv (some ⟨6, 0⟩)))
    (by decide) (by decide) (by decide) (by decide) (by decide)

/-- C2 as stated fails: with buffer capacity 1 and input `[1, 2]`, when no read or write
fails and no cancellation is requested but the clock cannot be read in the first
iteration, the loop ends by `exit(1)` after the first chunk, and the output `[1]` is not
the input.  The same input with a readable clock and a null status sink ends after the
first chunk in the status line printed on the null pointer. -/
theorem transfer_cut_by_clock_failure :
    (∀ ev ∈ List.replicate 3 (calmEnv none), ev.clean = true) ∧
    (1 ≤ ({ bufsize := 1 } : Options).bufsize) ∧
    (∃ s1, mainLoop { bufsize := 1 } FilePtr.stderr ⟨0, 0⟩
        (List.replicate 3 (calmEnv none))
        (initState ⟨0, 0⟩ [1, 2]) = LoopEnd.exited 1 s1 ∧
      outputBytes s1 = [1] ∧ outputBytes s1 ≠ [1, 2]) ∧
    (∃ s1, mainLoop { bufsize := 1 } FilePtr.null ⟨0, 0⟩
        (List.replicate 3 (calmEnv (some ⟨0, 1⟩)))
        (initState ⟨0, 0⟩ [1, 2]) = LoopEnd.undefined s1 ∧
      outputBytes s1 = [1] ∧ outputBytes s1 ≠ [1, 2]) :=
  ⟨by decide, by decide, ⟨_, rfl, by decide, by decide⟩, ⟨_, rfl, by decide, by decide⟩⟩

/-- C8: for an input of 2,097,152 bytes relayed with buffer capacity 1,048,576, without
errors or cancellation, the transfer loop performs exactly two chunk transfers, complete
writes of the first and of the second 1,048,576 bytes of the input, and then leaves at
the end-of-input test; the final total is 2,097,152, and `unitify` of the total with
base 1024 and scaling enabled yields tier 2 (suffix "M") with fixed-point value 200,
rendered as 2.00 right-justified in 7 characters, a blank and M; the summary line
carries this total. -/
theorem two_mib_scenario (o : Options) (statusf : FilePtr) (start tvEnd : Timespec)
    (input : List Nat) (envs : List Env)
    (hlen : input.length = 2097152) (hb : o.bufsize = 1048576)
    (hu : o.unit = 1024) (hd : o.dounit = true) (hsum : o.summary = true)
    (hf : statusf ≠ FilePtr.null)
    (hclean : ∀ ev ∈ envs, ev.clean = true ∧ ev.clockOk = true)
    (h3 : 3 ≤ envs.length) :
    ∃ s1, mainLoop o statusf start envs (initState start input) = LoopEnd.left s1 ∧
      s1.stdout = [{ data := input.take 1048576, requested := 1048576 },
                   { data := (input.drop 1048576).take 1048576, requested := 1048576 }] ∧
      (∀ w ∈ s1.stdout, w.data.length = 1048576 ∧ w.complete = true) ∧
      outputBytes s1 = input ∧
      s1.datalen = 2097152 ∧
      unitify unitifyFuel s1.datalen o.unit o.dounit =
        some { e := 2, val := 200, fra := 2, unit := "M" } ∧
      (unitify unitifyFuel s1.datalen o.unit o.dounit).map unitText = some "   2.00 M" ∧
      (summaryStep o statusf start (some tvEnd) s1).state.status.getLast? =
        some (StatusEvent.summaryLine statusf (if o.statusfn.isSome then '\n' else '\r')
          (some { e := 2, val := 200, fra := 2, unit := "M" }) (time_diff start tvEnd)) := by
  obtain ⟨e1, e2, e3, rest, rfl⟩ : ∃ e1 e2 e3 rest, envs = e1 :: e2 :: e3 :: rest := by
    match envs, h3 with
    | e1 :: e2 :: e3 :: rest, _ => exact ⟨e1, e2, e3, rest, rfl⟩
  obtain ⟨hc1, hk1⟩ := hclean e1 (by simp)
  obtain ⟨hc2, hk2⟩ := hclean e2 (by simp)
  obtain ⟨hc3, _⟩ := hclean e3 (by simp)
  have hdone : ∀ ev : Env, ev.clean = true → ev.done = false := by
    intro ev h
    simp only [Env.clean, Bool.and_eq_true, Bool.not_eq_true'] at h
    exact h.1.1
  have hb1 : 1 ≤ o.bufsize := by omega
  -- first chunk
  have hne0 : (initState start input).stdin ≠ [] := by
    intro h
    have : input.length = 0 := by simpa [initState] using congrArg List.length h
    omega
  obtain ⟨s1, hstep1, a1, a2, a3⟩ :=
    loopBody_clean_cons o statusf start e1 (initState start input) hc1 hk1 hf hb1 hne0
  simp only [initState, hb, List.nil_append, Nat.zero_add] at a1 a2 a3
  have hl1 : (input.take 1048576).length = 1048576 := by
    rw [List.length_take]; omega
  rw [hl1] at a2 a3
  have hd1 : s1.datalen = 1048576 := by rw [a3]; decide
  -- second chunk
  have hl2 : ((input.drop 1048576).take 1048576).length = 1048576 := by
    rw [List.length_take, List.length_drop]; omega
  have hne1 : s1.stdin ≠ [] := by
    intro h
    have : (input.drop 1048576).length = 0 := by rw [← a1, h]; rfl
    rw [List.length_drop] at this
    omega
  obtain ⟨s2, hstep2, b1, b2, b3⟩ :=
    loopBody_clean_cons o statusf start e2 s1 hc2 hk2 hf hb1 hne1
  rw [a1, hb, hl2] at b2 b3
  rw [a1, hb] at b1
  rw [a2] at b2
  rw [hd1] at b3
  have hd2 : s2.datalen = 2097152 := by rw [b3]; decide
  -- end of input
  have hnil : s2.stdin = [] := by
    rw [b1]
    apply List.eq_nil_of_length_eq_zero
    rw [List.length_drop, List.length_drop]; omega
  have hrun : mainLoop o statusf start (e1 :: e2 :: e3 :: rest) (initState start input) =
      LoopEnd.left s2 := by
    simp only [mainLoop, hdone e1 hc1, hdone e2 hc2, hdone e3 hc3, Bool.false_eq_true,
      if_false, hstep1, hstep2, loopBody_clean_nil o statusf start e3 s2 hc3 hnil]
  have hunit : unitify unitifyFuel s2.datalen o.unit o.dounit =
      some { e := 2, val := 200, fra := 2, unit := "M" } := by
    rw [hd2, hu, hd]; decide
  refine ⟨s2, hrun, b2, ?_, ?_, hd2, hunit, ?_, ?_⟩
  · intro w hw
    rw [b2] at hw
    simp only [List.nil_append, List.cons_append, List.mem_cons, List.mem_singleton,
      List.not_mem_nil, or_false] at hw
    rcases hw with rfl | rfl
    · exact ⟨hl1, by simp [WriteRec.complete, hl1]⟩
    · exact ⟨hl2, by simp [WriteRec.complete, hl2]⟩
  · have htail : (input.drop 1048576).take 1048576 = input.drop 1048576 := by
      apply List.take_of_length_le
      rw [List.length_drop]; omega
    simp [outputBytes, b2, htail]
  · rw [hunit]; decide
  · simp [summaryStep, get_mono_time, hsum, hf, hunit]

theorem two_mib_scenario_witness :
    ∃ s1, mainLoop { bufsize := 1048576 } FilePtr.stderr ⟨0, 0⟩
        [calmEnv (some ⟨0, 5⟩), calmEnv (some ⟨0, 9⟩), calmEnv (some ⟨1, 2⟩)]
        (initState ⟨0, 0⟩ (List.replicate 2097152 0)) = LoopEnd.left s1 ∧
      s1.datalen = 2097152 ∧
      (unitify unitifyFuel s1.datalen 1024 true).map unitText = some "   2.00 M" := by
  obtain ⟨s1, h1, _, _, _, h5, _, h7, _⟩ :=
    two_mib_scenario { bufsize := 1048576 } FilePtr.stderr ⟨0, 0⟩ ⟨1, 0⟩
      (List.replicate 2097152 0) [calmEnv (some ⟨0, 5⟩), calmEnv (some ⟨0, 9⟩), calmEnv (some ⟨1, 2⟩)]
      (List.length_replicate _ _) rfl rfl rfl rfl (by decide)
      (by
        intro ev hev
        simp only [List.mem_cons, List.mem_singleton, List.not_mem_nil, or_false] at hev
        rcases hev with rfl | rfl | rfl <;> decide)
      (by decide)
  exact ⟨s1, h1, h5, h7⟩

/-- C1 fails on the code: under the tolerant policy, with buffer capacity 2 and input
`[1, 2, 3]`, when the write of the second chunk fails, the loop is left with total
`datalen = 3` although only the first chunk, of 2 bytes, was written; the summary is
computed from the total 3 (fixed-point 300 at tier 0). -/
theorem datalen_counts_failed_write :
    (∃ s, mainLoop { bufsize := 2 } FilePtr.stderr ⟨0, 0⟩
        [calmEnv (some ⟨0, 1⟩), writeFaultEnv 0 (some ⟨0, 2⟩)]
        (initState ⟨0, 0⟩ [1, 2, 3]) = LoopEnd.left s ∧
      s.datalen = 3 ∧ successfulBytes s = 2 ∧ outputBytes s = [1, 2] ∧
      s.stdout = [{ data := [1, 2], requested := 2 }, { data := [], requested := 1 }]) ∧
    (main { bufsize := 2 }
        (plainWorld true [1, 2, 3] [calmEnv (some ⟨0, 1⟩), writeFaultEnv 0 (some ⟨0, 2⟩)]
          (some ⟨1, 0⟩))).ending = Ending.exit 0 ∧
    (main { bufsize := 2 }
        (plainWorld true [1, 2, 3] [calmEnv (some ⟨0, 1⟩), writeFaultEnv 0 (some ⟨0, 2⟩)]
          (some ⟨1, 0⟩))).state.status.getLast? =
      some (StatusEvent.summaryLine FilePtr.stderr '\r'
        (some { e := 0, val := 300, fra := 2, unit := "" })
        { hours := 0, minutes := 0, seconds := 1, hundredths := 0 }) :=
  ⟨⟨_, rfl, by decide, by decide, by decide, by decide⟩, by decide, by decide⟩

/-! ## Claims on the status file -/

/-- C3 fails on the code in its tolerant half: when the status file is named and `fopen`
fails under the tolerant policy, the status sink is the null pointer that `fopen`
returned, not standard error, and the first status line of the transfer loop is printed
on it (no defined behaviour).  Under the strict policy the program returns 1 with
nothing read and nothing written. -/
theorem status_sink_after_failed_fopen :
    openStatus { statusfn := some "status.log" } false = Except.ok FilePtr.null ∧
    (main { statusfn := some "status.log" }
        (plainWorld false [1, 2, 3] [calmEnv (some ⟨0, 1⟩), calmEnv (some ⟨0, 2⟩)]
          (some ⟨1, 0⟩))).statusf = FilePtr.null ∧
    (main { statusfn := some "status.log" }
        (plainWorld false [1, 2, 3] [calmEnv (some ⟨0, 1⟩), calmEnv (some ⟨0, 2⟩)]
          (some ⟨1, 0⟩))).ending = Ending.undefined ∧
    (main { statusfn := some "status.log", errout := true }
        (plainWorld false [1, 2, 3] [calmEnv (some ⟨0, 1⟩), calmEnv (some ⟨0, 2⟩)]
          (some ⟨1, 0⟩))).ending = Ending.exit 1 ∧
    (main { statusfn := some "status.log", errout := true }
        (plainWorld false [1, 2, 3] [calmEnv (some ⟨0, 1⟩), calmEnv (some ⟨0, 2⟩)]
          (some ⟨1, 0⟩))).state.stdout = [] ∧
    (main { statusfn := some "status.log", errout := true }
        (plainWorld false [1, 2, 3] [calmEnv (some ⟨0, 1⟩), calmEnv (some ⟨0, 2⟩)]
          (some ⟨1, 0⟩))).state.stdin = [1, 2, 3] :=
  ⟨rfl, by decide, by decide, by decide, by decide, by decide⟩


/-! ## Lemmas on binary64 arithmetic -/

theorem bitLen_spec : ∀ (fuel n : Nat), n < 2 ^ fuel → 0 < n →
    2 ^ bitLen fuel n ≤ 2 * n ∧ n < 2 ^ bitLen fuel n := by
  intro fuel
  induction fuel with
  | zero => intro n h hp; simp at h; omega
  | succ f ih =>
    intro n h hp
    have hn0 : n ≠ 0 := by omega
    simp only [bitLen, hn0, if_false]
    by_cases h2 : n / 2 = 0
    · have h1 : n = 1 := by omega
      subst h1
      cases f <;> simp [bitLen]
    · have hlt : n / 2 < 2 ^ f := by
        rw [pow_succ] at h; omega
      obtain ⟨i1, i2⟩ := ih (n / 2) hlt (by omega)
      rw [pow_succ]
      constructor <;> omega

theorem bitLen_self (n : Nat) (hp : 0 < n) :
    2 ^ bitLen n n ≤ 2 * n ∧ n < 2 ^ bitLen n n :=
  bitLen_spec n n (Nat.lt_two_pow n) hp

theorem roundDiv_err (N D : Nat) (hD : 0 < D) :
    ((roundDiv N D : Nat) : ℚ) * D - N ≤ (D : ℚ) / 2 ∧
    (N : ℚ) - ((roundDiv N D : Nat) : ℚ) * D ≤ (D : ℚ) / 2 := by
  have h := Nat.div_add_mod N D
  have hr := Nat.mod_lt N hD
  have hq : (N : ℚ) = (D : ℚ) * ((N / D : Nat) : ℚ) + ((N % D : Nat) : ℚ) := by
    exact_mod_cast h.symm
  have hr' : ((N % D : Nat) : ℚ) < D := by exact_mod_cast hr
  have hr0 : (0 : ℚ) ≤ ((N % D : Nat) : ℚ) := Nat.cast_nonneg _
  unfold roundDiv
  split_ifs with hc
  · have h2 : (D : ℚ) ≤ 2 * ((N % D : Nat) : ℚ) := by
      rcases hc with hc | hc
      · exact_mod_cast hc.le
      · exact_mod_cast hc.1.ge
    push_cast
    constructor <;> nlinarith
  · have h2 : 2 * ((N % D : Nat) : ℚ) ≤ D := by
      have : 2 * (N % D) ≤ D := by
        by_contra hcon
        exact hc (Or.inl (by omega))
      exact_mod_cast this
    constructor <;> nlinarith

theorem scaled_pos (P q : Nat) (t : Int) (hq : 0 < q) : 0 < (scaled P q t).2 := by
  unfold scaled
  split_ifs
  · exact Nat.mul_pos hq (pow_pos (by decide) _)
  · exact hq

theorem scaled_val (P q : Nat) (t : Int) (hq : 0 < q) :
    ((scaled P q t).1 : ℚ) / ((scaled P q t).2 : ℚ) = (P : ℚ) / q * (2 : ℚ) ^ (-t) := by
  have hq0 : (q : ℚ) ≠ 0 := by exact_mod_cast hq.ne'
  unfold scaled
  split_ifs with h
  · obtain ⟨n, rfl⟩ := Int.eq_ofNat_of_zero_le h
    simp only [Int.toNat_ofNat, Nat.cast_mul, Nat.cast_pow, Nat.cast_ofNat, zpow_neg,
      zpow_natCast]
    field_simp
  · obtain ⟨n, hn⟩ := Int.eq_ofNat_of_zero_le (show 0 ≤ -t by omega)
    rw [hn]
    simp only [Int.toNat_ofNat, Nat.cast_mul, Nat.cast_pow, Nat.cast_ofNat, zpow_natCast]
    field_simp

/-- The scaled magnitude at the chosen exponent has at least 53 binary digits. -/
theorem binade_lower (P q : Nat) (hP : 0 < P) (hq : 0 < q) :
    (2 : ℚ) ^ 52 ≤ (P : ℚ) / q * (2 : ℚ) ^ (-(binade P q)) := by
  have hq0 : (0 : ℚ) < q := by exact_mod_cast hq
  obtain ⟨p1, _⟩ := bitLen_self P hP
  obtain ⟨_, q2⟩ := bitLen_self q hq
  have p1' : (2 : ℚ) ^ (bitLen P P : Int) ≤ 2 * (P : ℚ) := by
    rw [zpow_natCast]; exact_mod_cast p1
  have q2' : (q : ℚ) < (2 : ℚ) ^ (bitLen q q : Int) := by
    rw [zpow_natCast]; exact_mod_cast q2
  have h2 : (0 : ℚ) < 2 := by norm_num
  -- the first guess is already large enough
  have hguess : (2 : ℚ) ^ 52 ≤
      (P : ℚ) / q * (2 : ℚ) ^ (-((bitLen P P : Int) - (bitLen q q : Int) - 53)) := by
    have e1 : (2 : ℚ) ^ (-((bitLen P P : Int) - (bitLen q q : Int) - 53)) =
        (2 : ℚ) ^ (bitLen q q : Int) * 2 ^ (53 : Int) / (2 : ℚ) ^ (bitLen P P : Int) := by
      rw [show -((bitLen P P : Int) - (bitLen q q : Int) - 53) =
        (bitLen q q : Int) + 53 + -(bitLen P P : Int) by ring]
      rw [zpow_add₀ h2.ne', zpow_add₀ h2.ne', zpow_neg]
      rfl
    rw [e1]
    have hA : (0 : ℚ) < (2 : ℚ) ^ (bitLen P P : Int) := zpow_pos h2 _
    have hB : (0 : ℚ) < (2 : ℚ) ^ (bitLen q q : Int) := zpow_pos h2 _
    rw [div_mul_div_comm, le_div_iff₀ (mul_pos hq0 hA)]
    have h53 : (2 : ℚ) ^ (53 : Int) = 2 * 2 ^ 52 := by norm_num
    rw [h53]
    have hP0 : (0 : ℚ) < P := by exact_mod_cast hP
    nlinarith [mul_pos hP0 hB, mul_le_mul_of_nonneg_left p1' hq0.le,
      mul_lt_mul_of_pos_left q2' hP0, mul_pos hq0 hA]
  unfold binade
  simp only []
  split_ifs with hc
  · exact hguess
  · have hge : (2 : ℚ) ^ 53 ≤
        (P : ℚ) / q * (2 : ℚ) ^ (-((bitLen P P : Int) - (bitLen q q : Int) - 53)) := by
      rw [← scaled_val P q _ hq]
      have hD := scaled_pos P q ((bitLen P P : Int) - (bitLen q q : Int) - 53) hq
      have hD' : (0 : ℚ) < ((scaled P q ((bitLen P P : Int) - (bitLen q q : Int) - 53)).2 : ℚ) := by
        exact_mod_cast hD
      rw [le_div_iff₀ hD']
      have := Nat.le_of_not_lt hc
      exact_mod_cast this
    rw [show -((bitLen P P : Int) - (bitLen q q : Int) - 53 + 1) =
      -((bitLen P P : Int) - (bitLen q q : Int) - 53) + -1 by ring, zpow_add₀ h2.ne']
    have : (2 : ℚ) ^ (-1 : Int) = 1 / 2 := by norm_num
    rw [this]
    nlinarith

theorem Double.val_pos_iff (d : Double) : 0 < d.val ↔ 0 < d.sig := by
  unfold Double.val
  have h : (0 : ℚ) < (2 : ℚ) ^ d.exp := zpow_pos (by norm_num) _
  constructor
  · intro hv
    have : (0 : ℚ) < (d.sig : ℚ) := by
      by_contra hc
      push_neg at hc
      nlinarith
    exact_mod_cast this
  · intro hs
    have : (0 : ℚ) < (d.sig : ℚ) := by exact_mod_cast hs
    exact mul_pos this h

/-- Rounding a positive quotient: the result is positive and within relative error
`2 ^ (-53)`. -/
theorem Double.round_pos (P q : Nat) (k : Int) (hP : 0 < P) (hq : 0 < q) :
    0 < (Double.round (P : Int) q k).sig ∧
    |(Double.round (P : Int) q k).val - (P : ℚ) / q * (2 : ℚ) ^ k| ≤
      (P : ℚ) / q * (2 : ℚ) ^ k / 2 ^ 53 := by
  have hP0 : ((P : Int)) ≠ 0 := by exact_mod_cast hP.ne'
  have hsign : ((P : Int)).sign = 1 := Int.sign_eq_one_of_pos (by exact_mod_cast hP)
  have hD := scaled_pos P q (binade P q) hq
  have hD' : (0 : ℚ) < ((scaled P q (binade P q)).2 : ℚ) := by exact_mod_cast hD
  obtain ⟨e1, e2⟩ := roundDiv_err (scaled P q (binade P q)).1 (scaled P q (binade P q)).2 hD
  have hX := scaled_val P q (binade P q) hq
  have hlow := binade_lower P q hP hq
  rw [← hX] at hlow
  rw [le_div_iff₀ hD'] at hlow
  set N : ℚ := ((scaled P q (binade P q)).1 : ℚ) with hN
  set D : ℚ := ((scaled P q (binade P q)).2 : ℚ) with hDd
  set m : ℚ := ((roundDiv (scaled P q (binade P q)).1 (scaled P q (binade P q)).2 : Nat) : ℚ)
    with hm
  have h2 : (0 : ℚ) < 2 := by norm_num
  have hpow : (0 : ℚ) < (2 : ℚ) ^ (binade P q + k) := zpow_pos h2 _
  have hval : (Double.round (P : Int) q k).val = m * (2 : ℚ) ^ (binade P q + k) := by
    simp [Double.round, Double.val, hP0, hsign, hm]
  have hx : (P : ℚ) / q * (2 : ℚ) ^ k = N / D * (2 : ℚ) ^ (binade P q + k) := by
    rw [hX, mul_assoc, ← zpow_add₀ h2.ne']
    congr 2
    ring
  have hmpos : (0 : ℚ) < m := by nlinarith
  refine ⟨?_, ?_⟩
  · have : (0 : ℚ) < (Double.round (P : Int) q k).val := by
      rw [hval]; exact mul_pos hmpos hpow
    exact (Double.val_pos_iff _).mp this
  · have hXD : N = N / D * D := (div_mul_cancel₀ N hD'.ne').symm
    have hXlow : (2 : ℚ) ^ 52 ≤ N / D := by
      rw [le_div_iff₀ hD']; exact hlow
    have hup : m - N / D ≤ 1 / 2 := by
      have : (m - N / D) * D ≤ 1 / 2 * D := by rw [sub_mul, ← hXD]; linarith
      exact le_of_mul_le_mul_right this hD'
    have hdn : N / D - m ≤ 1 / 2 := by
      have : (N / D - m) * D ≤ 1 / 2 * D := by rw [sub_mul, ← hXD]; linarith
      exact le_of_mul_le_mul_right this hD'
    have habs : |m - N / D| ≤ N / D / 2 ^ 53 := by
      rw [abs_le]
      have h53 : N / D / 2 ^ 53 ≥ 1 / 2 := by
        rw [ge_iff_le, le_div_iff₀ (by positivity)]
        norm_num at hXlow ⊢
        linarith
      constructor <;> linarith
    rw [hval, hx, ← sub_mul, abs_mul, abs_of_pos hpow]
    calc |m - N / D| * (2 : ℚ) ^ (binade P q + k)
        ≤ N / D / 2 ^ 53 * (2 : ℚ) ^ (binade P q + k) :=
          mul_le_mul_of_nonneg_right habs hpow.le
      _ = N / D * (2 : ℚ) ^ (binade P q + k) / 2 ^ 53 := by ring

theorem Double.round_neg (p : Int) (q : Nat) (k : Int) :
    Double.round (-p) q k = ⟨-(Double.round p q k).sig, (Double.round p q k).exp⟩ := by
  unfold Double.round
  by_cases h : p = 0
  · simp [h]
  · have h' : -p ≠ 0 := by omega
    simp [h, h', Int.natAbs_neg, Int.sign_neg]

theorem Double.val_neg (s e : Int) : (Double.mk (-s) e).val = -(Double.mk s e).val := by
  simp [Double.val]

theorem Double.round_zero (q : Nat) (k : Int) : Double.round 0 q k = ⟨0, 0⟩ := by
  simp [Double.round]

/-- Rounding keeps the sign and has relative error at most `2 ^ (-53)`. -/
theorem Double.round_spec (p : Int) (q : Nat) (k : Int) (hq : 0 < q) :
    (0 < (Double.round p q k).sig ↔ 0 < p) ∧
    ((Double.round p q k).sig < 0 ↔ p < 0) ∧
    |(Double.round p q k).val - (p : ℚ) / q * (2 : ℚ) ^ k| ≤
      |(p : ℚ) / q * (2 : ℚ) ^ k| / 2 ^ 53 := by
  have hq0 : (0 : ℚ) < q := by exact_mod_cast hq
  have h2 : (0 : ℚ) < (2 : ℚ) ^ k := zpow_pos (by norm_num) _
  rcases lt_trichotomy p 0 with hp | hp | hp
  · obtain ⟨P, hPeq⟩ := Int.eq_ofNat_of_zero_le (show 0 ≤ -p by omega)
    have hP : 0 < P := by omega
    obtain ⟨r1, r2⟩ := Double.round_pos P q k hP hq
    have hpe : p = -(P : Int) := by omega
    have hx : (0 : ℚ) < (P : ℚ) / q * (2 : ℚ) ^ k :=
      mul_pos (div_pos (by exact_mod_cast hP) hq0) h2
    rw [hpe, Double.round_neg]
    refine ⟨?_, ?_, ?_⟩
    · simp only []; constructor <;> intro h <;> omega
    · simp only []; constructor <;> intro h <;> omega
    · show |(Double.mk (-(Double.round (P : Int) q k).sig) (Double.round (P : Int) q k).exp).val
        - ((-(P : Int) : Int) : ℚ) / q * (2 : ℚ) ^ k| ≤ _
      rw [Double.val_neg]
      have e1 : ((-(P : Int) : Int) : ℚ) / q * (2 : ℚ) ^ k = -((P : ℚ) / q * (2 : ℚ) ^ k) := by
        push_cast; ring
      rw [e1, abs_neg, abs_of_pos hx, ← neg_sub', abs_neg]
      exact r2
  · subst hp
    rw [Double.round_zero]
    simp [Double.val]
  · obtain ⟨P, hPeq⟩ := Int.eq_ofNat_of_zero_le (show 0 ≤ p by omega)
    have hP : 0 < P := by omega
    obtain ⟨r1, r2⟩ := Double.round_pos P q k hP hq
    have hx : (0 : ℚ) < (P : ℚ) / q * (2 : ℚ) ^ k :=
      mul_pos (div_pos (by exact_mod_cast hP) hq0) h2
    subst hPeq
    refine ⟨?_, ?_, ?_⟩
    · constructor <;> intro _ <;> omega
    · constructor <;> intro h <;> omega
    · rw [Int.cast_natCast, abs_of_pos hx]
      exact r2

theorem Double.ofInt_spec (n : Int) :
    (0 < (Double.ofInt n).sig ↔ 0 < n) ∧ ((Double.ofInt n).sig < 0 ↔ n < 0) ∧
    |(Double.ofInt n).val - (n : ℚ)| ≤ |(n : ℚ)| / 2 ^ 53 := by
  have h := Double.round_spec n 1 0 (by decide)
  simpa [Double.ofInt] using h

theorem Double.div_spec (a b : Double) (hb : 0 < b.sig) :
    (0 < (Double.div a b).sig ↔ 0 < a.sig) ∧ ((Double.div a b).sig < 0 ↔ a.sig < 0) ∧
    |(Double.div a b).val - a.val / b.val| ≤ |a.val / b.val| / 2 ^ 53 := by
  have hsign : b.sig.sign = 1 := Int.sign_eq_one_of_pos hb
  have hq : 0 < b.sig.natAbs := Int.natAbs_pos.mpr hb.ne'
  obtain ⟨r1, r2, r3⟩ := Double.round_spec (a.sig * b.sig.sign) b.sig.natAbs (a.exp - b.exp) hq
  have hval : ((a.sig * b.sig.sign : Int) : ℚ) / (b.sig.natAbs : ℚ) * (2 : ℚ) ^ (a.exp - b.exp) =
      a.val / b.val := by
    have hb' : ((b.sig.natAbs : Nat) : ℚ) = (b.sig : ℚ) := by
      rw [Nat.cast_natAbs, abs_of_pos hb]
    have hbq : (b.sig : ℚ) ≠ 0 := by exact_mod_cast hb.ne'
    have h2 : (2 : ℚ) ≠ 0 := by norm_num
    rw [hsign, hb', zpow_sub₀ h2]
    simp only [Double.val, mul_one]
    field_simp
  rw [hval] at r3
  rw [hsign, mul_one] at r1 r2
  unfold Double.div
  rw [hsign, mul_one] at r3 ⊢
  exact ⟨r1, r2, r3⟩

theorem Double.add_spec (a b : Double) :
    (0 < (Double.add a b).sig ↔ 0 < a.val + b.val) ∧
    ((Double.add a b).sig < 0 ↔ a.val + b.val < 0) ∧
    |(Double.add a b).val - (a.val + b.val)| ≤ |a.val + b.val| / 2 ^ 53 := by
  obtain ⟨r1, r2, r3⟩ := Double.round_spec
    (a.sig * 2 ^ (a.exp - min a.exp b.exp).toNat + b.sig * 2 ^ (b.exp - min a.exp b.exp).toNat)
    1 (min a.exp b.exp) (by decide)
  have h2 : (2 : ℚ) ≠ 0 := by norm_num
  have hpow : (0 : ℚ) < (2 : ℚ) ^ (min a.exp b.exp) := zpow_pos (by norm_num) _
  have hval : ((a.sig * 2 ^ (a.exp - min a.exp b.exp).toNat +
      b.sig * 2 ^ (b.exp - min a.exp b.exp).toNat : Int) : ℚ) / ((1 : Nat) : ℚ) *
      (2 : ℚ) ^ (min a.exp b.exp) = a.val + b.val := by
    have ea : ((a.exp - min a.exp b.exp).toNat : Int) = a.exp - min a.exp b.exp :=
      Int.toNat_of_nonneg (by have := min_le_left a.exp b.exp; omega)
    have eb : ((b.exp - min a.exp b.exp).toNat : Int) = b.exp - min a.exp b.exp :=
      Int.toNat_of_nonneg (by have := min_le_right a.exp b.exp; omega)
    have pa : (2 : ℚ) ^ (a.exp - min a.exp b.exp).toNat * (2 : ℚ) ^ (min a.exp b.exp) =
        (2 : ℚ) ^ a.exp := by
      rw [← zpow_natCast, ea, ← zpow_add₀ h2]; congr 1; ring
    have pb : (2 : ℚ) ^ (b.exp - min a.exp b.exp).toNat * (2 : ℚ) ^ (min a.exp b.exp) =
        (2 : ℚ) ^ b.exp := by
      rw [← zpow_natCast, eb, ← zpow_add₀ h2]; congr 1; ring
    push_cast
    simp only [Double.val, div_one, add_mul, mul_assoc, pa, pb]
  rw [hval] at r3
  have hsgn : ((a.sig * 2 ^ (a.exp - min a.exp b.exp).toNat +
      b.sig * 2 ^ (b.exp - min a.exp b.exp).toNat : Int) : ℚ) * (2 : ℚ) ^ (min a.exp b.exp) =
      a.val + b.val := by
    rw [← hval]; simp
  unfold Double.add
  refine ⟨?_, ?_, r3⟩
  · rw [r1, ← hsgn]
    constructor
    · intro h; exact mul_pos (by exact_mod_cast h) hpow
    · intro h
      have : (0 : ℚ) < ((a.sig * 2 ^ (a.exp - min a.exp b.exp).toNat +
          b.sig * 2 ^ (b.exp - min a.exp b.exp).toNat : Int) : ℚ) := by
        by_contra hc
        push_neg at hc
        nlinarith
      exact_mod_cast this
  · rw [r2, ← hsgn]
    constructor
    · intro h
      have : ((a.sig * 2 ^ (a.exp - min a.exp b.exp).toNat +
          b.sig * 2 ^ (b.exp - min a.exp b.exp).toNat : Int) : ℚ) < 0 := by exact_mod_cast h
      nlinarith
    · intro h
      have : ((a.sig * 2 ^ (a.exp - min a.exp b.exp).toNat +
          b.sig * 2 ^ (b.exp - min a.exp b.exp).toNat : Int) : ℚ) < 0 := by
        by_contra hc
        push_neg at hc
        nlinarith
      exact_mod_cast this

theorem Double.ofInt_billion : Double.ofInt 1000000000 = ⟨8388608000000000, -23⟩ := by
  decide

theorem Double.val_billion : (Double.ofInt 1000000000).val = 1000000000 := by
  rw [Double.ofInt_billion]
  norm_num [Double.val]

/-- The double `a + b / 1e9` for an integer `a` and `|b| < 10 ^ 9`: its sign is the sign
of the exact value, and it is within `(3 |a| + 7) / 2 ^ 53` of it. -/
theorem seconds_spec (a b : Int) (hb1 : -1000000000 < b) (hb2 : b < 1000000000) :
    (0 < (Double.add (Double.ofInt a)
        (Double.div (Double.ofInt b) (Double.ofInt 1000000000))).sig ↔
      0 < a * 1000000000 + b) ∧
    |(Double.add (Double.ofInt a)
        (Double.div (Double.ofInt b) (Double.ofInt 1000000000))).val -
        ((a : ℚ) + (b : ℚ) / 1000000000)| ≤ (3 * |(a : ℚ)| + 7) / 2 ^ 53 := by
  obtain ⟨a1, a2, a3⟩ := Double.ofInt_spec a
  obtain ⟨b1, b2, b3⟩ := Double.ofInt_spec b
  have hC : 0 < (Double.ofInt 1000000000).sig := by rw [Double.ofInt_billion]; decide
  obtain ⟨x1, x2, x3⟩ := Double.div_spec (Double.ofInt b) (Double.ofInt 1000000000) hC
  obtain ⟨s1, s2, s3⟩ := Double.add_spec (Double.ofInt a)
    (Double.div (Double.ofInt b) (Double.ofInt 1000000000))
  rw [Double.val_billion] at x3
  set A := (Double.ofInt a).val with hA
  set B := (Double.ofInt b).val with hB
  set X := (Double.div (Double.ofInt b) (Double.ofInt 1000000000)).val with hX
  set S := (Double.add (Double.ofInt a)
    (Double.div (Double.ofInt b) (Double.ofInt 1000000000))).val with hS
  have hbq1 : (-999999999 : ℚ) ≤ (b : ℚ) := by
    have : -999999999 ≤ b := by omega
    exact_mod_cast this
  have hbq2 : (b : ℚ) ≤ 999999999 := by
    have : b ≤ 999999999 := by omega
    exact_mod_cast this
  have habsb : |(b : ℚ)| ≤ 999999999 := abs_le.mpr ⟨by linarith, hbq2⟩
  -- the nanosecond difference as a double
  obtain ⟨b3l, b3u⟩ := abs_le.mp b3
  have hBabs : |B / 1000000000| ≤ (999999999 + 999999999 / 2 ^ 53) / 1000000000 := by
    rw [abs_div, abs_of_pos (by norm_num : (0 : ℚ) < 1000000000)]
    apply div_le_div_of_nonneg_right _ (by norm_num)
    rw [abs_le]
    constructor <;> linarith
  obtain ⟨x3l, x3u⟩ := abs_le.mp x3
  have hXerr : |X - (b : ℚ) / 1000000000| ≤ 3 / 2 ^ 53 := by
    rw [abs_le]
    have e1 : B / 1000000000 - (b : ℚ) / 1000000000 ≤ 999999999 / 2 ^ 53 / 1000000000 := by
      rw [← sub_div]
      apply div_le_div_of_nonneg_right _ (by norm_num)
      linarith
    have e2 : -(999999999 / 2 ^ 53 / 1000000000) ≤ B / 1000000000 - (b : ℚ) / 1000000000 := by
      rw [← sub_div, ← neg_div]
      apply div_le_div_of_nonneg_right _ (by norm_num)
      linarith
    have e3 : |B / 1000000000| / 2 ^ 53 ≤
        (999999999 + 999999999 / 2 ^ 53) / 1000000000 / 2 ^ 53 :=
      div_le_div_of_nonneg_right hBabs (by norm_num)
    constructor
    · have : (3 : ℚ) / 2 ^ 53 - 999999999 / 2 ^ 53 / 1000000000 -
          (999999999 + 999999999 / 2 ^ 53) / 1000000000 / 2 ^ 53 ≥ 0 := by norm_num
      linarith
    · have : (3 : ℚ) / 2 ^ 53 - 999999999 / 2 ^ 53 / 1000000000 -
          (999999999 + 999999999 / 2 ^ 53) / 1000000000 / 2 ^ 53 ≥ 0 := by norm_num
      linarith
  obtain ⟨xel, xeu⟩ := abs_le.mp hXerr
  have hbdiv1 : (b : ℚ) / 1000000000 ≤ 999999999 / 1000000000 :=
    div_le_div_of_nonneg_right hbq2 (by norm_num)
  have hbdiv2 : (-999999999 : ℚ) / 1000000000 ≤ (b : ℚ) / 1000000000 :=
    div_le_div_of_nonneg_right hbq1 (by norm_num)
  obtain ⟨a3l, a3u⟩ := abs_le.mp a3
  obtain ⟨s3l, s3u⟩ := abs_le.mp s3
  have hnum : (999999999 : ℚ) / 1000000000 + 3 / 2 ^ 53 < 1 - 1 / 2 ^ 53 := by norm_num
  constructor
  · -- the sign
    rw [s1]
    rcases lt_trichotomy a 0 with ha | ha | ha
    · have haq : (a : ℚ) ≤ -1 := by
        have : a ≤ -1 := by omega
        exact_mod_cast this
      have habs : |(a : ℚ)| = -(a : ℚ) := abs_of_neg (by linarith)
      rw [habs] at a3l a3u
      constructor
      · intro h; exfalso
        have : (a : ℚ) / 2 ^ 53 ≤ -1 / 2 ^ 53 :=
          div_le_div_of_nonneg_right haq (by norm_num)
        have h3 : -(a : ℚ) / 2 ^ 53 = -((a : ℚ) / 2 ^ 53) := by ring
        linarith
      · intro h; omega
    · subst ha
      have hA0 : A = 0 := by
        have : |A - ((0 : Int) : ℚ)| ≤ 0 := by simpa using a3
        have := abs_nonpos_iff.mp this
        simpa using this
      rw [hA0, zero_add, hX, Double.val_pos_iff, x1, b1]
      constructor <;> intro h <;> omega
    · have haq : (1 : ℚ) ≤ (a : ℚ) := by
        have : 1 ≤ a := by omega
        exact_mod_cast this
      have habs : |(a : ℚ)| = (a : ℚ) := abs_of_pos (by linarith)
      rw [habs] at a3l a3u
      constructor
      · intro _; omega
      · intro _
        have : (1 : ℚ) / 2 ^ 53 ≤ 1 := by norm_num
        have h3 : (a : ℚ) - (a : ℚ) / 2 ^ 53 ≥ 1 - 1 / 2 ^ 53 := by
          have : (a : ℚ) * (1 - 1 / 2 ^ 53) ≥ 1 * (1 - 1 / 2 ^ 53) :=
            mul_le_mul_of_nonneg_right haq (by norm_num)
          linarith
        linarith
  · -- the error
    have hsum : |A + X| ≤ 2 * |(a : ℚ)| + 4 := by
      have hae : |A| ≤ 2 * |(a : ℚ)| := by
        have h1 : |A| ≤ |A - (a : ℚ)| + |(a : ℚ)| := by
          have := abs_add (A - (a : ℚ)) (a : ℚ)
          simpa using this
        have h2 : |(a : ℚ)| / 2 ^ 53 ≤ |(a : ℚ)| :=
          div_le_self (abs_nonneg _) (by norm_num)
        linarith
      have hxe : |X| ≤ 4 := by
        rw [abs_le]
        have : (3 : ℚ) / 2 ^ 53 ≤ 1 := by norm_num
        constructor <;> linarith
      exact (abs_add A X).trans (by linarith)
    have hsum' : |A + X| / 2 ^ 53 ≤ (2 * |(a : ℚ)| + 4) / 2 ^ 53 :=
      div_le_div_of_nonneg_right hsum (by norm_num)
    have e : S - ((a : ℚ) + (b : ℚ) / 1000000000) =
        (S - (A + X)) + (A - (a : ℚ)) + (X - (b : ℚ) / 1000000000) := by ring
    rw [e, abs_le]
    have t : (3 * |(a : ℚ)| + 7) / 2 ^ 53 =
        (2 * |(a : ℚ)| + 4) / 2 ^ 53 + |(a : ℚ)| / 2 ^ 53 + 3 / 2 ^ 53 := by ring
    rw [t]
    constructor <;> linarith

theorem Double.toUInt64_spec (d : Double) (hd : 0 ≤ d.sig) :
    Double.toUInt64 d = if ⌊d.val⌋ < 2 ^ 64 then some ⌊d.val⌋.toNat else none := by
  have hfloor : (if 0 ≤ d.exp then d.sig * 2 ^ d.exp.toNat
      else d.sig.tdiv (2 ^ (-d.exp).toNat)) = ⌊d.val⌋ := by
    split_ifs with h
    · obtain ⟨n, hn⟩ := Int.eq_ofNat_of_zero_le h
      have : d.val = ((d.sig * 2 ^ n : Int) : ℚ) := by
        simp [Double.val, hn]
      rw [this, Int.floor_intCast, hn, Int.toNat_ofNat]
    · obtain ⟨n, hn⟩ := Int.eq_ofNat_of_zero_le (show 0 ≤ -d.exp by omega)
      have he : d.exp = -(n : Int) := by omega
      have : d.val = (d.sig : ℚ) / ((2 ^ n : Nat) : ℚ) := by
        simp [Double.val, he, div_eq_mul_inv]
      rw [this, Rat.floor_intCast_div_natCast, hn, Int.toNat_ofNat,
        Int.tdiv_eq_ediv hd (by positivity)]
      simp
  have hnn : 0 ≤ ⌊d.val⌋ := by
    apply Int.floor_nonneg.mpr
    unfold Double.val
    have : (0 : ℚ) ≤ (d.sig : ℚ) := by exact_mod_cast hd
    exact mul_nonneg this (zpow_nonneg (by norm_num) _)
  unfold Double.toUInt64
  simp only [hfloor, hnn, true_and]

/-! ## Claims on the average rate -/

/-- C7, amended: in the summary step, for every total byte count and every pair of
timestamps whose sub-second components differ by less than 10^9 and whose seconds differ
by a `long` value: if the elapsed time is zero or not positive, the test `seconds > 0`
fails and the average rate is 0, whatever the total (the dividing branch is not taken);
if it is positive, `seconds` is positive and the average rate is the binary64 quotient
of the total by `seconds` truncated to an integer, without result when that is 2^64 or
more.  The three roundings are accurate: `seconds` is within (3 |Δsec| + 7) / 2^53 of the
exact elapsed seconds, the total as a double within total / 2^53 of the total, and the
quotient within a 2^-53 fraction of the quotient of these two doubles. -/
theorem summaryRate_spec (datalen : Nat) (start tv2 : Timespec)
    (hn1 : -1000000000 < tv2.tv_nsec - start.tv_nsec)
    (hn2 : tv2.tv_nsec - start.tv_nsec < 1000000000)
    (hr1 : -(2 ^ 63) ≤ tv2.tv_sec - start.tv_sec)
    (hr2 : tv2.tv_sec - start.tv_sec < 2 ^ 63) :
    (tv2.nanos - start.nanos ≤ 0 →
      ¬ 0 < (summarySeconds start tv2).val ∧ summaryRate datalen start tv2 = some 0) ∧
    (0 < tv2.nanos - start.nanos →
      0 < (summarySeconds start tv2).val ∧
      summaryRate datalen start tv2 =
        (if ⌊(Double.div (Double.ofInt datalen) (summarySeconds start tv2)).val⌋ < 2 ^ 64
         then some ⌊(Double.div (Double.ofInt datalen) (summarySeconds start tv2)).val⌋.toNat
         else none) ∧
      |(Double.div (Double.ofInt datalen) (summarySeconds start tv2)).val -
          (Double.ofInt datalen).val / (summarySeconds start tv2).val| ≤
        |(Double.ofInt datalen).val / (summarySeconds start tv2).val| / 2 ^ 53) ∧
    |(summarySeconds start tv2).val - ((tv2.nanos - start.nanos : Int) : ℚ) / 1000000000| ≤
      (3 * |((tv2.tv_sec - start.tv_sec : Int) : ℚ)| + 7) / 2 ^ 53 ∧
    |(Double.ofInt datalen).val - (datalen : ℚ)| ≤ (datalen : ℚ) / 2 ^ 53 := by
  have hw1 : wrapLong (tv2.tv_sec - start.tv_sec) = tv2.tv_sec - start.tv_sec :=
    wrapLong_eq _ hr1 hr2
  have hw2 : wrapLong (tv2.tv_nsec - start.tv_nsec) = tv2.tv_nsec - start.tv_nsec :=
    wrapLong_eq _ (by omega) (by omega)
  obtain ⟨g1, g2⟩ := seconds_spec (tv2.tv_sec - start.tv_sec) (tv2.tv_nsec - start.tv_nsec)
    hn1 hn2
  have hS : summarySeconds start tv2 =
      Double.add (Double.ofInt (tv2.tv_sec - start.tv_sec))
        (Double.div (Double.ofInt (tv2.tv_nsec - start.tv_nsec))
          (Double.ofInt 1000000000)) := by
    unfold summarySeconds; rw [hw1, hw2]
  rw [← hS] at g1 g2
  have hel : tv2.nanos - start.nanos =
      (tv2.tv_sec - start.tv_sec) * 1000000000 + (tv2.tv_nsec - start.tv_nsec) := by
    simp only [Timespec.nanos]; ring
  rw [← hel] at g1
  have hexact : ((tv2.tv_sec - start.tv_sec : Int) : ℚ) +
      ((tv2.tv_nsec - start.tv_nsec : Int) : ℚ) / 1000000000 =
      ((tv2.nanos - start.nanos : Int) : ℚ) / 1000000000 := by
    rw [hel]; push_cast; ring
  rw [hexact] at g2
  obtain ⟨_, _, d3⟩ := Double.ofInt_spec (datalen : Int)
  refine ⟨?_, ?_, g2, ?_⟩
  · intro hle
    have hns : ¬ 0 < (summarySeconds start tv2).sig := by rw [g1]; omega
    refine ⟨fun h => hns ((Double.val_pos_iff _).mp h), ?_⟩
    simp [summaryRate, hns]
  · intro hpos
    have hsig : 0 < (summarySeconds start tv2).sig := g1.mpr hpos
    obtain ⟨q1, q2, q3⟩ := Double.div_spec (Double.ofInt datalen) (summarySeconds start tv2) hsig
    have hqnn : 0 ≤ (Double.div (Double.ofInt datalen) (summarySeconds start tv2)).sig := by
      by_contra hc
      have hlt := q2.mp (by omega)
      have := (Double.ofInt_spec (datalen : Int)).2.1.mp hlt
      omega
    refine ⟨(Double.val_pos_iff _).mpr hsig, ?_, q3⟩
    simp only [summaryRate, hsig, if_true]
    exact Double.toUInt64_spec _ hqnn
  · simpa using d3

theorem summaryRate_spec_witness :
    0 < Timespec.nanos ⟨2, 500000000⟩ - Timespec.nanos ⟨0, 0⟩ ∧
      0 < (summarySeconds ⟨0, 0⟩ ⟨2, 500000000⟩).val ∧
      summaryRate 1000 ⟨0, 0⟩ ⟨2, 500000000⟩ = some 400 :=
  ⟨by decide,
    ((summaryRate_spec 1000 ⟨0, 0⟩ ⟨2, 500000000⟩ (by decide) (by decide) (by decide)
      (by decide)).2.1 (by decide)).1,
    by decide⟩

/-- C7 as stated fails in its positive half: for 7 bytes transferred in 0.07 s the total
divided by the elapsed seconds is exactly 100, and the program passes 99 to the
formatter, because `7e7 / 1e9` rounds to a double above 0.07 and the quotient to the
double below 100.  The two differences of lines 299-300 also have to be in range: for
start = -1 s and end = 2^63 - 1 s the difference of the seconds wraps, and the rate is 0
although the elapsed time is positive; for start = 0 s + 33554431999999999 ns and end =
33554432 s + 0 ns, one nanosecond later, `seconds` rounds to 0 and the rate is 0. -/
theorem average_rate_rounding :
    (0 < Timespec.nanos ⟨0, 70000000⟩ - Timespec.nanos ⟨0, 0⟩ ∧
      exactAverage 7 ⟨0, 0⟩ ⟨0, 70000000⟩ = 100 ∧
      summaryRate 7 ⟨0, 0⟩ ⟨0, 70000000⟩ = some 99) ∧
    (0 < Timespec.nanos ⟨2 ^ 63 - 1, 0⟩ - Timespec.nanos ⟨-1, 0⟩ ∧
      exactAverage (2 ^ 63) ⟨-1, 0⟩ ⟨2 ^ 63 - 1, 0⟩ = 1 ∧
      summaryRate (2 ^ 63) ⟨-1, 0⟩ ⟨2 ^ 63 - 1, 0⟩ = some 0) ∧
    (0 < Timespec.nanos ⟨33554432, 0⟩ - Timespec.nanos ⟨0, 33554431999999999⟩ ∧
      exactAverage 1 ⟨0, 33554431999999999⟩ ⟨33554432, 0⟩ = 1000000000 ∧
      summaryRate 1 ⟨0, 33554431999999999⟩ ⟨33554432, 0⟩ = some 0) := by
  decide

end Pipebench
